import Mathlib

/-!
# memory_pressure_generator: a verification development

Shallow embedding of `memory_pressure_generator.c`.

* C `int` values are mathematical integers; every arithmetic operation goes
  through `arith`, which either reduces the exact result to 32-bit two's
  complement (`Mode.wrapping`, what the compiled program computes) or reports
  `CErr.overflow` when the exact result is not representable
  (`Mode.checked`, the ISO C reading in which signed overflow is undefined).
* `/` on `int` truncates towards zero (`Int.tdiv`); a zero divisor is
  `CErr.divByZero` and `INT_MIN / -1` is `CErr.overflow`, in both modes (the
  division instruction traps on both).
* The worker (`allocate_memory`) is a step function on an explicit state; a
  schedule interleaves program actions with delivered signals.
* The controller (`main`) returns the list of its system-level effects and its
  exit status.
-/

namespace MemoryPressure

/-! ## C `int` arithmetic -/

/-- Largest value of a 32-bit `int`. -/
def INT_MAX : Int := 2147483647

/-- Smallest value of a 32-bit `int`. -/
def INT_MIN : Int := -2147483648

/-- How an `int` operation treats a result outside `[INT_MIN, INT_MAX]`. -/
inductive Mode where
  | wrapping
  | checked
  deriving DecidableEq, Repr

/-- Run-time faults of `int` arithmetic. -/
inductive CErr where
  | overflow
  | divByZero
  | arrayBound
  deriving DecidableEq, Repr

/-- Reduction of an exact integer to 32-bit two's complement. -/
def wrap32 (x : Int) : Int := (x + 2147483648) % 4294967296 - 2147483648

/-- Result of an `int` operation whose exact value is `x`. -/
def arith (m : Mode) (x : Int) : Except CErr Int :=
  match m with
  | Mode.wrapping => Except.ok (wrap32 x)
  | Mode.checked =>
    if INT_MIN ≤ x ∧ x ≤ INT_MAX then Except.ok x else Except.error CErr.overflow

/-- `a + b` on `int`. -/
def c_add (m : Mode) (a b : Int) : Except CErr Int := arith m (a + b)

/-- `a - b` on `int`. -/
def c_sub (m : Mode) (a b : Int) : Except CErr Int := arith m (a - b)

/-- `a * b` on `int`. -/
def c_mul (m : Mode) (a b : Int) : Except CErr Int := arith m (a * b)

/-- `a / b` on `int`: truncation towards zero; fault on a zero divisor and on
`INT_MIN / -1`, whose quotient is not representable. -/
def c_div (m : Mode) (a b : Int) : Except CErr Int :=
  if b = 0 then Except.error CErr.divByZero
  else if a = INT_MIN ∧ b = -1 then Except.error CErr.overflow
  else arith m (Int.tdiv a b)

/-- `!x` on `int`. -/
def c_not (x : Int) : Int := if x = 0 then 1 else 0

/-! ## Constants -/

/-- `#define MB_SIZE (1024 * 1024)`. -/
def MB_SIZE : Int := 1024 * 1024

/-- `#define MAX_MEMORY_PER_PROCESS 1000`: max memory each process can allocate. -/
def MAX_MEMORY_PER_PROCESS : Int := 1000

/-- Signal number of `SIGUSR1` (Linux value; proofs only compare with it). -/
def SIGUSR1 : Int := 10

/-- Signal number of `SIGTERM`. -/
def SIGTERM : Int := 15

/-! ## Allocation plan (`main`, lines 71-72) -/

/-- The dividend `total_memory_mb + MAX_MEMORY_PER_PROCESS - 1` of line 71,
evaluated left to right. -/
def rounded_total (m : Mode) (total_memory_mb : Int) : Except CErr Int := do
  let s ← c_add m total_memory_mb MAX_MEMORY_PER_PROCESS
  c_sub m s 1

/-- `(total_memory_mb + MAX_MEMORY_PER_PROCESS - 1) / MAX_MEMORY_PER_PROCESS`. -/
def num_processes (m : Mode) (total_memory_mb : Int) : Except CErr Int := do
  let s1 ← rounded_total m total_memory_mb
  c_div m s1 MAX_MEMORY_PER_PROCESS

/-- `total_memory_mb / num_processes`. -/
def memory_per_process (m : Mode) (total_memory_mb np : Int) : Except CErr Int :=
  c_div m total_memory_mb np

/-- The pair `(num_processes, memory_per_process)` computed by `main`. -/
def plan (m : Mode) (total_memory_mb : Int) : Except CErr (Int × Int) := do
  let np ← num_processes m total_memory_mb
  let mpp ← memory_per_process m total_memory_mb np
  pure (np, mpp)

/-! ## Signal handler (lines 29-34) -/

/-- One line written to the console by a worker. The percentage printed by the
progress line is the double `100.0 * step / steps`, determined by its fields. -/
inductive Line where
  | text (s : String)
  | progress (pid mb step steps : Int)
  deriving DecidableEq, Repr

/-- `signalHandler(sig)` run on the flag `paused` in process `pid`: the new
flag and the line printed. -/
def signalHandler (pid sig paused : Int) : Int × List Line :=
  if sig = SIGUSR1 then
    let p := c_not paused
    (p, [Line.text ("Process " ++ toString pid ++ ": " ++
      (if p ≠ 0 then "Paused" else "Resumed") ++ "\n")])
  else (paused, [])

/-! ## Worker (`allocate_memory`, lines 36-60) -/

/-- Control points of `allocate_memory` and the ways the process ends. -/
inductive PC where
  | forTest        -- line 47: `i < steps`
  | whileTest      -- line 48: `while (paused)`
  | pauseCall      -- line 49: about to call `pause()`
  | pauseBlocked   -- line 49: suspended inside `pause()`
  | memsetCall     -- line 51
  | printfCall     -- lines 52-53
  | usleepCall     -- line 54, followed by `i++`
  | idle           -- lines 57-59
  | exited (status : Int)
  | killed (sig : Int)
  | fault (e : CErr)
  deriving DecidableEq, Repr

/-- State of a worker process. `writes` lists the `memset` calls made so far
as (offset into the block, length), oldest first. -/
structure Worker where
  pid : Int
  memory_mb : Int
  steps : Int
  delay_ms : Int
  memory_bytes : Int
  step_size : Int
  i : Int
  paused : Int
  pc : PC
  writes : List (Int × Int)
  out : List Line
  deriving Repr

/-- What happens next to a worker: it executes its next program action, or a
signal is delivered to it. -/
inductive Event where
  | run
  | sigusr1
  | sigterm
  deriving DecidableEq, Repr

/-- Lines 37-45 of `allocate_memory`: sizes, `malloc` (whose success is given
by `malloc_ok`), handler registration; the worker then stands at the loop test
with `i = 0`. The flag `paused` is the global initialised to 0. The handler
stays registered after a delivery (BSD semantics of `signal`). -/
def allocate_memory_init (m : Mode) (malloc_ok : Bool) (pid memory_mb steps delay_ms : Int) :
    Worker :=
  let w0 : Worker :=
    { pid := pid, memory_mb := memory_mb, steps := steps, delay_ms := delay_ms,
      memory_bytes := 0, step_size := 0, i := 0, paused := 0, pc := PC.forTest,
      writes := [], out := [] }
  match c_mul m memory_mb MB_SIZE with
  | Except.error e => { w0 with pc := PC.fault e }
  | Except.ok memory_bytes =>
    match c_div m memory_bytes steps with
    | Except.error e => { w0 with memory_bytes := memory_bytes, pc := PC.fault e }
    | Except.ok step_size =>
      let w1 := { w0 with memory_bytes := memory_bytes, step_size := step_size }
      if malloc_ok then w1
      else { w1 with pc := PC.exited 1, out := [Line.text "Memory allocation failed.\n"] }

/-- The process has ended. -/
def PC.dead : PC → Bool
  | PC.exited _ => true
  | PC.killed _ => true
  | PC.fault _ => true
  | _ => false

/-- One program action of the worker. -/
def run_step (m : Mode) (w : Worker) : Worker :=
  match w.pc with
  | PC.forTest => if w.i < w.steps then { w with pc := PC.whileTest } else { w with pc := PC.idle }
  | PC.whileTest =>
    if w.paused ≠ 0 then { w with pc := PC.pauseCall } else { w with pc := PC.memsetCall }
  | PC.pauseCall => { w with pc := PC.pauseBlocked }
  | PC.pauseBlocked => w
  | PC.memsetCall =>
    match c_mul m w.i w.step_size with
    | Except.error e => { w with pc := PC.fault e }
    | Except.ok off => { w with writes := w.writes ++ [(off, w.step_size)], pc := PC.printfCall }
  | PC.printfCall =>
    match c_add m w.i 1, c_div m w.memory_mb w.steps with
    | Except.ok step, Except.ok mb =>
      { w with out := w.out ++ [Line.progress w.pid mb step w.steps], pc := PC.usleepCall }
    | Except.error e, _ => { w with pc := PC.fault e }
    | _, Except.error e => { w with pc := PC.fault e }
  | PC.usleepCall =>
    match c_mul m w.delay_ms 1000, c_add m w.i 1 with
    | Except.ok _, Except.ok i1 => { w with i := i1, pc := PC.forTest }
    | Except.error e, _ => { w with pc := PC.fault e }
    | _, Except.error e => { w with pc := PC.fault e }
  | PC.idle => w
  | PC.exited _ => w
  | PC.killed _ => w
  | PC.fault _ => w

/-- Delivery of `SIGUSR1`: the registered handler runs; a worker suspended in
`pause()` returns from it and re-tests the flag. -/
def deliver_usr1 (w : Worker) : Worker :=
  if w.pc.dead then w
  else
    let r := signalHandler w.pid SIGUSR1 w.paused
    { w with paused := r.1, out := w.out ++ r.2,
             pc := match w.pc with
               | PC.pauseBlocked => PC.whileTest
               | pc => pc }

/-- Delivery of `SIGTERM`: default disposition, the process ends. -/
def deliver_term (w : Worker) : Worker :=
  if w.pc.dead then w else { w with pc := PC.killed SIGTERM }

/-- One event applied to a worker. -/
def step (m : Mode) (w : Worker) : Event → Worker
  | Event.run => run_step m w
  | Event.sigusr1 => deliver_usr1 w
  | Event.sigterm => deliver_term w

/-- A worker run under a schedule of events. -/
def exec (m : Mode) (w : Worker) (sched : List Event) : Worker :=
  sched.foldl (step m) w

/-- The state of `allocate_memory(memory_mb, steps, delay_ms)` in process `pid`
after the schedule `sched`. -/
def allocate_memory (m : Mode) (malloc_ok : Bool) (pid memory_mb steps delay_ms : Int)
    (sched : List Event) : Worker :=
  exec m (allocate_memory_init m malloc_ok pid memory_mb steps delay_ms) sched

/-- The slice `[k * step_size, (k + 1) * step_size)` as (offset, length). -/
def slice (step_size : Int) (k : Nat) : Int × Int := ((k : Int) * step_size, step_size)

/-- The slices of steps `0 .. n - 1`, in order. -/
def slices (step_size : Int) (n : Nat) : List (Int × Int) :=
  (List.range n).map (slice step_size)

/-- Byte offset `a` lies in the range `r = (offset, length)`. -/
def covers (r : Int × Int) (a : Int) : Prop := r.1 ≤ a ∧ a < r.1 + r.2

instance (r : Int × Int) (a : Int) : Decidable (covers r a) := by
  unfold covers
  exact inferInstance

/-- Byte offset `a` is written by one of the `memset` calls `ws`. -/
def written (ws : List (Int × Int)) (a : Int) : Prop := ∃ r ∈ ws, covers r a

/-! ## Controller (`main`, lines 62-106) -/

/-- Result of one `read(STDIN_FILENO, &ch, 1)` that is not end of input:
a byte stored into `ch` (return value 1) or a failure (return value -1, `ch`
unchanged). End of input (return value 0) is the end of the list of results. -/
inductive ReadResult where
  | byte (c : Char)
  | error
  deriving DecidableEq, Repr

/-- System-level effects of the controller process, in program order. -/
inductive Effect where
  | printf (s : String)
  | tcgetattr
  | atexit
  | tcsetattr (raw : Bool)
  | fork (pid : Int)
  | read (r : Option ReadResult)
  | kill (pid sig : Int)
  | waitpid (pid : Int)
  deriving DecidableEq, Repr

/-- How `main` ends in a process: it returns a status, or `fork` returned 0 and
the process continues as `allocate_memory`, which never returns, or the
process is ended by a fault after its first effects. -/
inductive Outcome where
  | returned (status : Int)
  | worker (memory_mb steps delay_ms : Int)
  | crashed (e : CErr)
  deriving DecidableEq, Repr

/-- What the environment supplies to `main`: `atoi`, whether the stack can hold
an array of that many `pid_t`, the value returned by the i-th `fork`, the
results of the successive reads, and the indeterminate initial content of
`ch`. -/
structure Env where
  atoi : String → Int
  stack_fits : Int → Bool
  pids : Nat → Int
  input : List ReadResult
  ch0 : Char

/-- `disableRawMode()`: restore the saved terminal attributes. -/
def disableRawMode : List Effect := [Effect.tcsetattr false]

/-- `enableRawMode()`: save the attributes, register `disableRawMode` with
`atexit`, clear `ICANON | ECHO`. -/
def enableRawMode : List Effect := [Effect.tcgetattr, Effect.atexit, Effect.tcsetattr true]

/-- Lines 79-84 from index `i` with `k` iterations left: the `fork` effects and,
when a `fork` returned 0, the index at which this process became a worker. -/
def spawn_loop (pids : Nat → Int) (i : Nat) : Nat → List Effect × Option Nat
  | 0 => ([], none)
  | k + 1 =>
    if pids i = 0 then ([Effect.fork 0], some i)
    else
      let r := spawn_loop pids (i + 1) k
      (Effect.fork (pids i) :: r.1, r.2)

/-- Lines 90-92: `kill(pids[i], SIGUSR1)` for `i = 0 .. n - 1`. -/
def broadcast (pids : Nat → Int) (n : Nat) : List Effect :=
  (List.range n).map (fun i => Effect.kill (pids i) SIGUSR1)

/-- Lines 89-93: the body of the read loop for the current `ch`. -/
def loop_body (pids : Nat → Int) (n : Nat) (ch : Char) : List Effect :=
  if ch = 'p' ∨ ch = 'P' then broadcast pids n else []

/-- Lines 88-94: the read loop, `ch` being the current content of the buffer. -/
def read_loop (pids : Nat → Int) (n : Nat) : Char → List ReadResult → List Effect
  | _, [] => [Effect.read none]
  | _, ReadResult.byte c :: rest =>
    Effect.read (some (ReadResult.byte c)) ::
      (if c = '\n' then [] else loop_body pids n c ++ read_loop pids n c rest)
  | ch, ReadResult.error :: rest =>
    Effect.read (some ReadResult.error) ::
      (if ch = '\n' then [] else loop_body pids n ch ++ read_loop pids n ch rest)

/-- Lines 97-100: `kill(pids[i], SIGTERM); waitpid(pids[i], NULL, 0)` for
`i = 0 .. n - 1`. -/
def shutdown (pids : Nat → Int) (n : Nat) : List Effect :=
  (List.range n).flatMap (fun i => [Effect.kill (pids i) SIGTERM, Effect.waitpid (pids i)])

/-- The usage line, `argv[0]` printed as `(null)` when absent. -/
def usage (argv : List String) : String :=
  "Usage: " ++ argv.headD "(null)" ++ " <total_memory_in_mb> <steps> <delay_ms>\n"

/-- The function `main` on the argument vector `argv` (`argc = argv.length`).
Line 76 allocates `pid_t pids[num_processes]` on the stack: a length below 1
is undefined and a length the stack cannot hold ends the process, both being
the outcome `crashed` after the effects of `enableRawMode`. Past it the loops
over `i < num_processes` run `num_processes.toNat` times and the content of
the array is the function `env.pids`. -/
def main (m : Mode) (env : Env) (argv : List String) : Except CErr (List Effect × Outcome) :=
  if argv.length ≠ 4 then
    Except.ok ([Effect.printf (usage argv)], Outcome.returned 1)
  else do
    let total_memory_mb := env.atoi (argv.getD 1 "")
    let steps := env.atoi (argv.getD 2 "")
    let delay_ms := env.atoi (argv.getD 3 "")
    let np ← num_processes m total_memory_mb
    let mpp ← memory_per_process m total_memory_mb np
    if np < 1 ∨ env.stack_fits np = false then
      pure (enableRawMode, Outcome.crashed CErr.arrayBound)
    else
      let n := np.toNat
      let start := enableRawMode ++
        [Effect.printf ("Creating " ++ toString np ++ " processes, each gradually allocating " ++
          toString mpp ++ " MB of memory...\n")]
      let forks := spawn_loop env.pids 0 n
      match forks.2 with
      | some _ => pure (start ++ forks.1, Outcome.worker mpp steps delay_ms)
      | none =>
        pure (start ++ forks.1 ++
          [Effect.printf "Press 'p' to pause/resume allocation. Press Enter to exit.\n"] ++
          read_loop env.pids n env.ch0 env.input ++
          shutdown env.pids n ++
          [Effect.printf "All processes terminated.\n"] ++ disableRawMode,
          Outcome.returned 0)

/-- Effects of the handlers registered with `atexit`, run when `main` returns. -/
def exit_handlers (es : List Effect) : List Effect :=
  if Effect.atexit ∈ es then disableRawMode else []

/-- The whole process: `main`, then the exit handlers when `main` returns (a
process ended by a fault runs none). -/
def process (m : Mode) (env : Env) (argv : List String) :
    Except CErr (List Effect × Outcome) := do
  let r ← main m env argv
  match r.2 with
  | Outcome.returned s => pure (r.1 ++ exit_handlers r.1, Outcome.returned s)
  | Outcome.worker a b c => pure (r.1, Outcome.worker a b c)
  | Outcome.crashed e => pure (r.1, Outcome.crashed e)

/-! ## Predicates and schedules used in the statements -/

/-- Every offset of a step below `steps` is representable. -/
def OffsetsFit (steps s : Int) : Prop :=
  ∀ k : Nat, (k : Int) < steps → INT_MIN ≤ (k : Int) * s ∧ (k : Int) * s ≤ INT_MAX

/-- What a live worker has written, by control point: before the `memset` of
step `i` the slices `0 .. i - 1`, after it the slices `0 .. i`; `i` never
exceeds `steps` and equals it in the idle phase. -/
def Inv (steps s : Int) (w : Worker) : Prop :=
  w.steps = steps ∧ w.step_size = s ∧ ∃ k : Nat, w.i = (k : Int) ∧ (k : Int) ≤ steps ∧
    (match w.pc with
    | PC.forTest => w.writes = slices s k
    | PC.whileTest => (k : Int) < steps ∧ w.writes = slices s k
    | PC.pauseCall => (k : Int) < steps ∧ w.writes = slices s k
    | PC.pauseBlocked => (k : Int) < steps ∧ w.writes = slices s k
    | PC.memsetCall => (k : Int) < steps ∧ w.writes = slices s k
    | PC.printfCall => (k : Int) < steps ∧ w.writes = slices s (k + 1)
    | PC.usleepCall => (k : Int) < steps ∧ w.writes = slices s (k + 1)
    | PC.idle => (k : Int) = steps ∧ w.writes = slices s k
    | PC.exited _ => True
    | PC.killed _ => True
    | PC.fault _ => True)

/-- A schedule under which the worker is paused during step 0 and resumed:
the first `SIGUSR1` arrives before the flag is tested, the second while the
worker is suspended in `pause()`. -/
def pausedOnce : List Event :=
  [Event.run, Event.sigusr1, Event.run, Event.run, Event.run, Event.sigusr1] ++
    List.replicate 15 Event.run

/-! ## Arithmetic lemmas -/

theorem wrap32_of_range {x : Int} (h1 : INT_MIN ≤ x) (h2 : x ≤ INT_MAX) : wrap32 x = x := by
  unfold wrap32
  unfold INT_MIN at h1
  unfold INT_MAX at h2
  omega

theorem arith_of_range (m : Mode) {x : Int} (h1 : INT_MIN ≤ x) (h2 : x ≤ INT_MAX) :
    arith m x = Except.ok x := by
  cases m
  · simp [arith, wrap32_of_range h1 h2]
  · simp [arith, h1, h2]

/-- Away from the two faulting cases `/` is the truncated quotient. -/
theorem c_div_eq (m : Mode) (a b : Int) (hb : b ≠ 0) (h : a ≠ INT_MIN ∨ b ≠ -1) :
    c_div m a b = arith m (Int.tdiv a b) := by
  have h2 : ¬ (a = INT_MIN ∧ b = -1) := by
    rintro ⟨h3, h4⟩
    rcases h with h | h
    · exact h h3
    · exact h h4
  simp [c_div, hb, h2]

theorem ceil_div_thousand (t : Int) : Int.ceil ((t : ℚ) / 1000) = (t + 999) / 1000 := by
  rw [Int.ceil_eq_iff]
  constructor
  · rw [lt_div_iff₀ (by norm_num)]
    have : (((t + 999) / 1000 : Int) - 1) * 1000 < t := by omega
    exact_mod_cast this
  · rw [div_le_iff₀ (by norm_num)]
    have : t ≤ ((t + 999) / 1000 : Int) * 1000 := by omega
    exact_mod_cast this

/-- In two's complement the sum `t + 1000 - 1` is exact as soon as `t + 999` is
representable, although `t + 1000` may not be. -/
theorem num_processes_wrapping_eq (t : Int) (h1 : -999 ≤ t) (h2 : t + 999 ≤ INT_MAX) :
    num_processes Mode.wrapping t = Except.ok ((t + 999) / 1000) := by
  have e1 : wrap32 (wrap32 (t + 1000) - 1) = t + 999 := by
    unfold wrap32
    unfold INT_MAX at h2
    omega
  have e2 : Int.tdiv (t + 999) 1000 = (t + 999) / 1000 :=
    Int.tdiv_eq_ediv (by omega) (by norm_num)
  have e3 : wrap32 ((t + 999) / 1000) = (t + 999) / 1000 := by
    unfold wrap32
    unfold INT_MAX at h2
    omega
  simp [num_processes, rounded_total, c_add, c_sub, c_div, arith, MAX_MEMORY_PER_PROCESS, bind, Except.bind,
    e1, e2, e3]

theorem num_processes_eq (m : Mode) (t : Int) (h1 : -999 ≤ t) (h2 : t + 1000 ≤ INT_MAX) :
    num_processes m t = Except.ok ((t + 999) / 1000) := by
  have e2 : Int.tdiv (t + 999) 1000 = (t + 999) / 1000 :=
    Int.tdiv_eq_ediv (by omega) (by norm_num)
  have hmin : INT_MIN = -2147483648 := rfl
  have hmax : INT_MAX = 2147483647 := rfl
  have a1 : arith m (t + 1000) = Except.ok (t + 1000) := arith_of_range m (by omega) (by omega)
  have a2 : arith m (t + 1000 - 1) = Except.ok (t + 999) := by
    have : t + 1000 - 1 = t + 999 := by ring
    rw [this]
    exact arith_of_range m (by omega) (by omega)
  have a3 : arith m ((t + 999) / 1000) = Except.ok ((t + 999) / 1000) :=
    arith_of_range m (by omega) (by omega)
  simp [num_processes, rounded_total, c_add, c_sub, c_div, MAX_MEMORY_PER_PROCESS, bind, Except.bind,
    a1, a2, e2, a3]

/-- Truncating division of a non-negative dividend by a non-zero divisor: the
quotient is bounded by the dividend and multiplying back does not exceed it. -/
theorem tdiv_nonneg_bounds (t n : Int) (ht : 0 ≤ t) (hn : n ≠ 0) :
    -t ≤ Int.tdiv t n ∧ Int.tdiv t n ≤ t ∧ Int.tdiv t n * n ≤ t := by
  rcases lt_or_gt_of_ne hn with hneg | hpos
  · have hn' : 0 < -n := by omega
    have e : Int.tdiv t n = -(t / (-n)) := by
      have : n = -(-n) := by ring
      rw [this, Int.tdiv_neg, Int.tdiv_eq_ediv ht (le_of_lt hn')]
      simp
    have b1 : 0 ≤ t / (-n) := Int.ediv_nonneg ht (le_of_lt hn')
    have b2 : t / (-n) ≤ t := Int.ediv_le_self _ ht
    have b3 : t / (-n) * (-n) ≤ t := Int.ediv_mul_le _ (by omega)
    rw [e]
    refine ⟨by omega, by omega, ?_⟩
    have : -(t / (-n)) * n = t / (-n) * (-n) := by ring
    rw [this]
    exact b3
  · have e : Int.tdiv t n = t / n := Int.tdiv_eq_ediv ht (le_of_lt hpos)
    have b1 : 0 ≤ t / n := Int.ediv_nonneg ht (le_of_lt hpos)
    have b2 : t / n ≤ t := Int.ediv_le_self _ ht
    have b3 : t / n * n ≤ t := Int.ediv_mul_le _ (by omega)
    rw [e]
    exact ⟨by omega, b2, b3⟩

/-- For a positive request the process count is never 0, in either mode. -/
theorem num_processes_ne_zero (m : Mode) (t np : Int) (h1 : 1 ≤ t) (h2 : t ≤ INT_MAX)
    (h : num_processes m t = Except.ok np) : np ≠ 0 ∧ INT_MIN ≤ np ∧ np ≤ INT_MAX := by
  have hmin : INT_MIN = -2147483648 := rfl
  have hmax : INT_MAX = 2147483647 := rfl
  cases m
  · by_cases hb : t + 999 ≤ INT_MAX
    · rw [num_processes_wrapping_eq t (by omega) hb] at h
      cases h
      omega
    · have key : ∀ s : Int, s ≤ -2147482650 → -2147483648 ≤ s →
          Int.tdiv s 1000 ≤ -2147482 ∧ -2147484 ≤ Int.tdiv s 1000 := by
        intro s hs1 hs2
        have e : Int.tdiv s 1000 = -((-s) / 1000) := by
          have : s = -(-s) := by ring
          rw [this, Int.neg_tdiv, Int.tdiv_eq_ediv (by omega) (by norm_num)]
          simp
        rw [e]
        omega
      have hs : wrap32 (wrap32 (t + 1000) - 1) ≤ -2147482650 ∧
          -2147483648 ≤ wrap32 (wrap32 (t + 1000) - 1) := by
        unfold wrap32
        omega
      have hk := key _ hs.1 hs.2
      simp only [num_processes, rounded_total, c_add, c_sub, c_div, arith, MAX_MEMORY_PER_PROCESS, bind,
        Except.bind] at h
      simp at h
      have hw : wrap32 (Int.tdiv (wrap32 (wrap32 (t + 1000) - 1)) 1000) =
          Int.tdiv (wrap32 (wrap32 (t + 1000) - 1)) 1000 :=
        wrap32_of_range (by omega) (by omega)
      rw [hw] at h
      omega
  · by_cases hb : t + 1000 ≤ INT_MAX
    · rw [num_processes_eq Mode.checked t (by omega) hb] at h
      cases h
      omega
    · have a1 : arith Mode.checked (t + 1000) = Except.error CErr.overflow := by
        have : ¬ (t + 1000 ≤ 2147483647) := by omega
        simp [arith, hmax, this]
      simp [num_processes, rounded_total, c_add, MAX_MEMORY_PER_PROCESS, a1, bind, Except.bind] at h

/-- In two's complement a positive request always yields a plan, and the
quotient is the exact truncated one. -/
theorem plan_wrapping_pos (t : Int) (h1 : 1 ≤ t) (h2 : t ≤ INT_MAX) :
    ∃ np, num_processes Mode.wrapping t = Except.ok np ∧ np ≠ 0 ∧
      plan Mode.wrapping t = Except.ok (np, Int.tdiv t np) := by
  have hmin : INT_MIN = -2147483648 := rfl
  have hmax : INT_MAX = 2147483647 := rfl
  obtain ⟨np, hnp⟩ : ∃ np, num_processes Mode.wrapping t = Except.ok np := by
    simp [num_processes, rounded_total, c_add, c_sub, c_div, arith, MAX_MEMORY_PER_PROCESS, bind, Except.bind]
  have hz := num_processes_ne_zero Mode.wrapping t np h1 h2 hnp
  have hb := tdiv_nonneg_bounds t np (by omega) hz.1
  refine ⟨np, hnp, hz.1, ?_⟩
  have hw : wrap32 (Int.tdiv t np) = Int.tdiv t np := wrap32_of_range (by omega) (by omega)
  have hd := c_div_eq Mode.wrapping t np hz.1 (Or.inl (by omega))
  simp [plan, hnp, memory_per_process, hd, arith, hw, bind, Except.bind, pure, Except.pure]

/-- In the range where no operation overflows both modes compute the same plan. -/
theorem plan_eq (m : Mode) (t : Int) (h1 : 1 ≤ t) (h2 : t + 1000 ≤ INT_MAX) :
    plan m t = Except.ok ((t + 999) / 1000, t / ((t + 999) / 1000)) := by
  have hmin : INT_MIN = -2147483648 := rfl
  have hmax : INT_MAX = 2147483647 := rfl
  have hnp := num_processes_eq m t (by omega) h2
  have hpos : 0 < (t + 999) / 1000 := by omega
  have hb := tdiv_nonneg_bounds t ((t + 999) / 1000) (by omega) (by omega)
  have e : Int.tdiv t ((t + 999) / 1000) = t / ((t + 999) / 1000) :=
    Int.tdiv_eq_ediv (by omega) (le_of_lt hpos)
  have ha : arith m (t / ((t + 999) / 1000)) = Except.ok (t / ((t + 999) / 1000)) := by
    rw [e] at hb
    exact arith_of_range m (by omega) (by omega)
  have hne : ¬ ((t + 999) / 1000 = 0) := by omega
  have hd := c_div_eq m t ((t + 999) / 1000) hne (Or.inl (by omega))
  simp [plan, hnp, memory_per_process, hd, e, ha, bind, Except.bind, pure, Except.pure]

/-- Bounds on the per-process share when the count is `ceil(t / 1000)`. -/
theorem share_bounds (t : Int) (h1 : 1 ≤ t) :
    1 ≤ t / ((t + 999) / 1000) ∧ t / ((t + 999) / 1000) ≤ 1000 := by
  have hpos : 0 < (t + 999) / 1000 := by omega
  constructor
  · apply Int.le_ediv_of_mul_le hpos
    omega
  · have : t / ((t + 999) / 1000) < 1001 := by
      apply Int.ediv_lt_of_lt_mul hpos
      omega
    omega

/-! ## Worker lemmas -/

theorem exec_append (m : Mode) (w : Worker) (a b : List Event) :
    exec m w (a ++ b) = exec m (exec m w a) b := by
  simp [exec, List.foldl_append]

theorem arith_ok_exact (m : Mode) {x y : Int} (h : arith m x = Except.ok y)
    (h1 : INT_MIN ≤ x) (h2 : x ≤ INT_MAX) : y = x := by
  rw [arith_of_range m h1 h2] at h
  cases h
  rfl

theorem slices_succ (s : Int) (k : Nat) : slices s (k + 1) = slices s k ++ [((k : Int) * s, s)] := by
  simp [slices, List.range_succ, slice]

theorem step_inv (m : Mode) (steps s : Int) (hsteps : steps ≤ INT_MAX)
    (hr : OffsetsFit steps s) (w : Worker) (e : Event) (h : Inv steps s w) :
    Inv steps s (step m w e) := by
  have hmin : INT_MIN = -2147483648 := rfl
  obtain ⟨h1, h2, k, hk, hle, hpc⟩ := h
  rcases w with ⟨pid, mb, st, d, B, sz, i, p, pc, ws, out⟩
  simp only at h1 h2 hk hpc
  subst h1 h2 hk
  cases e
  · -- a program action
    cases pc <;> simp only [step, run_step]
    · -- forTest
      split
      · exact ⟨rfl, rfl, k, rfl, hle, by assumption, hpc⟩
      · exact ⟨rfl, rfl, k, rfl, hle, by omega, hpc⟩
    · -- whileTest
      split
      · exact ⟨rfl, rfl, k, rfl, hle, hpc⟩
      · exact ⟨rfl, rfl, k, rfl, hle, hpc⟩
    · exact ⟨rfl, rfl, k, rfl, hle, hpc⟩
    · exact ⟨rfl, rfl, k, rfl, hle, hpc⟩
    · -- memsetCall
      cases hc : c_mul m (k : Int) sz with
      | error e => exact ⟨rfl, rfl, k, rfl, hle, trivial⟩
      | ok off =>
        have : off = (k : Int) * sz := arith_ok_exact m hc (hr k hpc.1).1 (hr k hpc.1).2
        subst this
        refine ⟨rfl, rfl, k, rfl, hle, hpc.1, ?_⟩
        simp only
        rw [slices_succ, hpc.2]
    · -- printfCall
      split
      · exact ⟨rfl, rfl, k, rfl, hle, hpc⟩
      · exact ⟨rfl, rfl, k, rfl, hle, trivial⟩
      · exact ⟨rfl, rfl, k, rfl, hle, trivial⟩
    · -- usleepCall
      split
      · rename_i d1 i1 hd hi
        have : i1 = (k : Int) + 1 := arith_ok_exact m hi (by omega) (by omega)
        subst this
        exact ⟨rfl, rfl, k + 1, by push_cast; rfl, by push_cast; omega, hpc.2⟩
      · exact ⟨rfl, rfl, k, rfl, hle, trivial⟩
      · exact ⟨rfl, rfl, k, rfl, hle, trivial⟩
    · exact ⟨rfl, rfl, k, rfl, hle, hpc⟩
    · exact ⟨rfl, rfl, k, rfl, hle, trivial⟩
    · exact ⟨rfl, rfl, k, rfl, hle, trivial⟩
    · exact ⟨rfl, rfl, k, rfl, hle, trivial⟩
  · -- SIGUSR1
    cases pc <;> simp only [step, deliver_usr1, PC.dead] <;>
      exact ⟨rfl, rfl, k, rfl, hle, hpc⟩
  · -- SIGTERM
    cases pc <;> simp only [step, deliver_term, PC.dead] <;>
      exact ⟨rfl, rfl, k, rfl, hle, trivial⟩

theorem exec_inv (m : Mode) (steps s : Int) (hsteps : steps ≤ INT_MAX)
    (hr : OffsetsFit steps s) (sched : List Event) (w : Worker) (h : Inv steps s w) :
    Inv steps s (exec m w sched) := by
  induction sched generalizing w with
  | nil => exact h
  | cons e rest ih => exact ih (step m w e) (step_inv m steps s hsteps hr w e h)

theorem arith_ok_range (m : Mode) {x y : Int} (h : arith m x = Except.ok y) :
    INT_MIN ≤ y ∧ y ≤ INT_MAX := by
  cases m
  · simp only [arith, Except.ok.injEq] at h
    subst h
    unfold wrap32 INT_MIN INT_MAX
    omega
  · simp only [arith] at h
    split at h
    · cases h
      assumption
    · cases h

/-- Truncating division by a positive divisor: the quotient has the sign of the
dividend and multiplying back stays between 0 and the dividend. -/
theorem tdiv_pos_bounds (b n : Int) (hn : 1 ≤ n) :
    (0 ≤ b → 0 ≤ Int.tdiv b n ∧ n * Int.tdiv b n ≤ b ∧ b < n * Int.tdiv b n + n) ∧
    (b ≤ 0 → Int.tdiv b n ≤ 0 ∧ b ≤ n * Int.tdiv b n) := by
  constructor
  · intro hb
    rw [Int.tdiv_eq_ediv hb (by omega)]
    refine ⟨Int.ediv_nonneg hb (by omega), ?_, ?_⟩
    · have := Int.ediv_mul_le b (show n ≠ 0 by omega)
      rw [mul_comm]
      exact this
    · have := Int.lt_ediv_add_one_mul_self b (show 0 < n by omega)
      have e : (b / n + 1) * n = n * (b / n) + n := by ring
      omega
  · intro hb
    have e : Int.tdiv b n = -((-b) / n) := by
      have : b = -(-b) := by ring
      rw [this, Int.neg_tdiv, Int.tdiv_eq_ediv (by omega) (by omega)]
      simp
    rw [e]
    have q0 : 0 ≤ (-b) / n := Int.ediv_nonneg (by omega) (by omega)
    have q1 := Int.ediv_mul_le (-b) (show n ≠ 0 by omega)
    refine ⟨by omega, ?_⟩
    have e2 : n * -((-b) / n) = -((-b) / n * n) := by ring
    rw [e2]
    omega

theorem offsetsFit_tdiv (b steps : Int) (hsteps : 1 ≤ steps) (h1 : INT_MIN ≤ b)
    (h2 : b ≤ INT_MAX) : OffsetsFit steps (Int.tdiv b steps) := by
  have hmin : INT_MIN = -2147483648 := rfl
  have hmax : INT_MAX = 2147483647 := rfl
  intro k hk
  have hb := tdiv_pos_bounds b steps hsteps
  rcases le_total 0 b with h0 | h0
  · obtain ⟨q0, q1, _⟩ := hb.1 h0
    have a1 : (0 : Int) ≤ (k : Int) * Int.tdiv b steps := mul_nonneg (by omega) q0
    have a2 : (k : Int) * Int.tdiv b steps ≤ steps * Int.tdiv b steps :=
      mul_le_mul_of_nonneg_right (le_of_lt hk) q0
    omega
  · obtain ⟨q0, q1⟩ := hb.2 h0
    have a1 : (k : Int) * Int.tdiv b steps ≤ 0 :=
      mul_nonpos_of_nonneg_of_nonpos (by omega) q0
    have a2 : steps * Int.tdiv b steps ≤ (k : Int) * Int.tdiv b steps :=
      mul_le_mul_of_nonpos_right (le_of_lt hk) q0
    omega

theorem tdiv_range (b steps : Int) (hsteps : 1 ≤ steps) (h1 : INT_MIN ≤ b) (h2 : b ≤ INT_MAX) :
    INT_MIN ≤ Int.tdiv b steps ∧ Int.tdiv b steps ≤ INT_MAX := by
  have hmin : INT_MIN = -2147483648 := rfl
  have hmax : INT_MAX = 2147483647 := rfl
  have hb := tdiv_pos_bounds b steps hsteps
  rcases le_total 0 b with h0 | h0
  · obtain ⟨q0, q1, _⟩ := hb.1 h0
    have : Int.tdiv b steps ≤ steps * Int.tdiv b steps := by nlinarith
    omega
  · obtain ⟨q0, q1⟩ := hb.2 h0
    have : steps * Int.tdiv b steps ≤ Int.tdiv b steps := by nlinarith
    omega

/-- What `allocate_memory_init` establishes, whatever the mode and the outcome
of `malloc`. -/
theorem allocate_memory_init_spec (m : Mode) (malloc_ok : Bool)
    (pid memory_mb steps delay_ms : Int) (hsteps : 1 ≤ steps) :
    (allocate_memory_init m malloc_ok pid memory_mb steps delay_ms).steps = steps ∧
    (allocate_memory_init m malloc_ok pid memory_mb steps delay_ms).i = 0 ∧
    (allocate_memory_init m malloc_ok pid memory_mb steps delay_ms).paused = 0 ∧
    (allocate_memory_init m malloc_ok pid memory_mb steps delay_ms).writes = [] ∧
    ((allocate_memory_init m malloc_ok pid memory_mb steps delay_ms).pc = PC.forTest ∨
      (allocate_memory_init m malloc_ok pid memory_mb steps delay_ms).pc.dead = true) ∧
    OffsetsFit steps (allocate_memory_init m malloc_ok pid memory_mb steps delay_ms).step_size := by
  have hmin : INT_MIN = -2147483648 := rfl
  have hmax : INT_MAX = 2147483647 := rfl
  have hz : OffsetsFit steps 0 := by
    intro k _
    simp [hmin, hmax]
  unfold allocate_memory_init
  cases hB : c_mul m memory_mb MB_SIZE with
  | error e => exact ⟨rfl, rfl, rfl, rfl, Or.inr rfl, hz⟩
  | ok B =>
    have hBr := arith_ok_range m hB
    dsimp only
    cases hS : c_div m B steps with
    | error e => exact ⟨rfl, rfl, rfl, rfl, Or.inr rfl, hz⟩
    | ok sz =>
      have hne : ¬ steps = 0 := by omega
      rw [c_div_eq m B steps hne (Or.inr (by omega))] at hS
      have hsz : sz = Int.tdiv B steps :=
        arith_ok_exact m hS (tdiv_range B steps hsteps hBr.1 hBr.2).1
          (tdiv_range B steps hsteps hBr.1 hBr.2).2
      subst hsz
      have hfit := offsetsFit_tdiv B steps hsteps hBr.1 hBr.2
      dsimp only
      cases malloc_ok
      · exact ⟨rfl, rfl, rfl, rfl, Or.inr rfl, hfit⟩
      · exact ⟨rfl, rfl, rfl, rfl, Or.inl rfl, hfit⟩

theorem allocate_memory_init_inv (m : Mode) (malloc_ok : Bool)
    (pid memory_mb steps delay_ms : Int) (hsteps : 1 ≤ steps) :
    Inv steps (allocate_memory_init m malloc_ok pid memory_mb steps delay_ms).step_size
      (allocate_memory_init m malloc_ok pid memory_mb steps delay_ms) := by
  obtain ⟨h1, h2, _, h4, h5, _⟩ :=
    allocate_memory_init_spec m malloc_ok pid memory_mb steps delay_ms hsteps
  refine ⟨h1, rfl, 0, by simpa using h2, by simp; omega, ?_⟩
  rcases h5 with h | h
  · rw [h]
    simpa [slices] using h4
  · revert h
    cases (allocate_memory_init m malloc_ok pid memory_mb steps delay_ms).pc <;>
      simp [PC.dead]

/-- Safety of the worker: under any schedule, a worker that stands in the idle
phase has written exactly the slices `0 .. steps - 1`, in order. -/
theorem idle_writes (m : Mode) (malloc_ok : Bool) (pid memory_mb steps delay_ms : Int)
    (sched : List Event) (hsteps : 1 ≤ steps) (hint : steps ≤ INT_MAX)
    (hidle : (exec m (allocate_memory_init m malloc_ok pid memory_mb steps delay_ms) sched).pc
      = PC.idle) :
    (exec m (allocate_memory_init m malloc_ok pid memory_mb steps delay_ms) sched).writes =
      slices (allocate_memory_init m malloc_ok pid memory_mb steps delay_ms).step_size
        steps.toNat := by
  have hspec := allocate_memory_init_spec m malloc_ok pid memory_mb steps delay_ms hsteps
  have hinv := exec_inv m steps _ hint hspec.2.2.2.2.2 sched _
    (allocate_memory_init_inv m malloc_ok pid memory_mb steps delay_ms hsteps)
  obtain ⟨_, _, k, _, _, hpc⟩ := hinv
  rw [hidle] at hpc
  simp only at hpc
  rw [hpc.2, ← hpc.1]
  simp

/-- The state in which `allocate_memory` enters its loop when the block size is
a non-negative `int` and `malloc` succeeds. -/
theorem allocate_memory_init_eq (m : Mode) (pid memory_mb steps delay_ms : Int)
    (hsteps : 1 ≤ steps) (hB0 : 0 ≤ memory_mb * MB_SIZE) (hB1 : memory_mb * MB_SIZE ≤ INT_MAX) :
    allocate_memory_init m true pid memory_mb steps delay_ms =
      { pid := pid, memory_mb := memory_mb, steps := steps, delay_ms := delay_ms,
        memory_bytes := memory_mb * MB_SIZE, step_size := memory_mb * MB_SIZE / steps,
        i := 0, paused := 0, pc := PC.forTest, writes := [], out := [] } := by
  have hmin : INT_MIN = -2147483648 := rfl
  have a1 : arith m (memory_mb * MB_SIZE) = Except.ok (memory_mb * MB_SIZE) :=
    arith_of_range m (by omega) hB1
  have e : Int.tdiv (memory_mb * MB_SIZE) steps = memory_mb * MB_SIZE / steps :=
    Int.tdiv_eq_ediv hB0 (by omega)
  have q0 : 0 ≤ memory_mb * MB_SIZE / steps := Int.ediv_nonneg hB0 (by omega)
  have q1 : memory_mb * MB_SIZE / steps ≤ memory_mb * MB_SIZE := Int.ediv_le_self _ hB0
  have a2 : arith m (memory_mb * MB_SIZE / steps) = Except.ok (memory_mb * MB_SIZE / steps) :=
    arith_of_range m (by omega) (by omega)
  have hne : ¬ steps = 0 := by omega
  have hd := c_div_eq m (memory_mb * MB_SIZE) steps hne (Or.inr (by omega))
  simp [allocate_memory_init, c_mul, hd, a1, e, a2]

/-- One full iteration of the step loop when no signal arrives (two's
complement): five program actions lead from the loop test back to it. -/
theorem iteration_no_signal (w : Worker) (hpc : w.pc = PC.forTest) (hp : w.paused = 0)
    (h0 : 0 ≤ w.i) (hlt : w.i < w.steps) (hmax : w.steps ≤ INT_MAX) :
    ∃ w', exec Mode.wrapping w (List.replicate 5 Event.run) = w' ∧ w'.pc = PC.forTest ∧
      w'.paused = 0 ∧ w'.i = w.i + 1 ∧ w'.steps = w.steps := by
  have hmin : INT_MIN = -2147483648 := rfl
  rcases w with ⟨pid, mb, st, d, B, sz, i, p, pc, ws, out⟩
  simp only at hpc hp h0 hlt hmax
  subst hpc hp
  have hne : ¬ st = 0 := by omega
  have hw : wrap32 (i + 1) = i + 1 := wrap32_of_range (by omega) (by omega)
  have hd := c_div_eq Mode.wrapping mb st hne (Or.inr (by omega))
  simp [exec, List.replicate, step, run_step, hlt, c_mul, c_add, hd, arith, hw]

theorem run_no_signal (n : Nat) : ∀ w : Worker, w.pc = PC.forTest → w.paused = 0 → 0 ≤ w.i →
    w.i + n ≤ w.steps → w.steps ≤ INT_MAX →
    ∃ w', exec Mode.wrapping w (List.replicate (5 * n) Event.run) = w' ∧ w'.pc = PC.forTest ∧
      w'.paused = 0 ∧ w'.i = w.i + n ∧ w'.steps = w.steps := by
  induction n with
  | zero =>
    intro w hpc hp _ _ _
    exact ⟨w, by simp [exec], hpc, hp, by simp, rfl⟩
  | succ k ih =>
    intro w hpc hp h0 hle hmax
    push_cast at hle
    obtain ⟨w1, e1, p1, q1, i1, s1⟩ := iteration_no_signal w hpc hp h0 (by omega) hmax
    obtain ⟨w2, e2, p2, q2, i2, s2⟩ := ih w1 p1 q1 (by omega) (by omega) (by omega)
    refine ⟨w2, ?_, p2, q2, by push_cast; omega, by omega⟩
    have : 5 * (k + 1) = 5 + 5 * k := by ring
    rw [this, List.replicate_add, exec_append, e1, e2]

/-- Without signals the worker reaches the idle phase after `5 * steps + 1`
program actions. -/
theorem idle_no_signal (w : Worker) (n : Nat) (hpc : w.pc = PC.forTest) (hp : w.paused = 0)
    (hi : w.i = 0) (hn : w.steps = (n : Int)) (hmax : w.steps ≤ INT_MAX) :
    (exec Mode.wrapping w (List.replicate (5 * n + 1) Event.run)).pc = PC.idle := by
  obtain ⟨w1, e1, p1, _, i1, s1⟩ := run_no_signal n w hpc hp (by omega) (by omega) hmax
  rw [List.replicate_add, exec_append, e1]
  have : ¬ (w1.i < w1.steps) := by omega
  simp [exec, List.replicate, step, run_step, p1, this]

/-! ## Geometry of the slices -/

theorem written_slices (s : Int) (n : Nat) (hs : 0 ≤ s) (a : Int) :
    written (slices s n) a ↔ 0 ≤ a ∧ a < (n : Int) * s := by
  constructor
  · rintro ⟨r, hr, h1, h2⟩
    simp only [slices, List.mem_map, List.mem_range] at hr
    obtain ⟨k, hk, rfl⟩ := hr
    simp only [slice] at h1 h2
    have hk0 : (0 : Int) ≤ (k : Int) * s := mul_nonneg (by omega) hs
    have : ((k : Int) + 1) * s ≤ (n : Int) * s :=
      mul_le_mul_of_nonneg_right (by omega) hs
    constructor
    · omega
    · have e : ((k : Int) + 1) * s = (k : Int) * s + s := by ring
      omega
  · rintro ⟨h0, h1⟩
    have hspos : 0 < s := by
      rcases lt_or_eq_of_le hs with h | h
      · exact h
      · rw [← h] at h1
        simp at h1
        omega
    have hq0 : 0 ≤ a / s := Int.ediv_nonneg h0 hs
    have hqn : a / s < (n : Int) := Int.ediv_lt_of_lt_mul hspos h1
    have hlo : a / s * s ≤ a := Int.ediv_mul_le a (by omega)
    have hhi : a < (a / s + 1) * s := Int.lt_ediv_add_one_mul_self a hspos
    refine ⟨slice s (a / s).toNat, ?_, ?_, ?_⟩
    · simp only [slices, List.mem_map, List.mem_range]
      exact ⟨(a / s).toNat, by omega, rfl⟩
    · simp only [slice, Int.toNat_of_nonneg hq0]
      exact hlo
    · simp only [slice, Int.toNat_of_nonneg hq0]
      have e : (a / s + 1) * s = a / s * s + s := by ring
      omega

theorem slices_ordered (s : Int) (n : Nat) (hs : 0 ≤ s) :
    List.Pairwise (fun r r' : Int × Int => r.1 + r.2 ≤ r'.1) (slices s n) := by
  simp only [slices, List.pairwise_map]
  refine List.Pairwise.imp ?_ (List.pairwise_lt_range n)
  intro i j hij
  simp only [slice]
  have : ((i : Int) + 1) * s ≤ (j : Int) * s := mul_le_mul_of_nonneg_right (by omega) hs
  have e : ((i : Int) + 1) * s = (i : Int) * s + s := by ring
  omega

theorem slices_contiguous (s : Int) (n : Nat) :
    List.Chain' (fun r r' : Int × Int => r.1 + r.2 = r'.1) (slices s n) := by
  simp only [slices, List.chain'_map]
  cases n with
  | zero => simp
  | succ k =>
    rw [List.chain'_range_succ]
    intro i _
    simp only [slice]
    push_cast
    ring

/-! ## The allocation plan -/

/-- C1 (as stated, refuted): at `total_memory_mb = -1000` no operation
overflows and the code computes `-1 / 1000 = 0` processes, while
`ceil(-1000 / 1000) = -1`; at `total_memory_mb = 2147483647` the sum leaves the
`int` range (a wrapped, negative count in two's complement, an overflow in
checked arithmetic), while the ceiling is 2147484. -/
theorem num_processes_not_ceil :
    num_processes Mode.wrapping (-1000) = Except.ok 0 ∧
    num_processes Mode.checked (-1000) = Except.ok 0 ∧
    Int.ceil (((-1000 : Int) : ℚ) / (MAX_MEMORY_PER_PROCESS : ℚ)) = -1 ∧
    num_processes Mode.wrapping 2147483647 = Except.ok (-2147482) ∧
    num_processes Mode.checked 2147483647 = Except.error CErr.overflow ∧
    Int.ceil (((2147483647 : Int) : ℚ) / (MAX_MEMORY_PER_PROCESS : ℚ)) = 2147484 := by
  have c : ∀ t : Int, Int.ceil ((t : ℚ) / (MAX_MEMORY_PER_PROCESS : ℚ)) = (t + 999) / 1000 := by
    intro t
    rw [← ceil_div_thousand t]
    simp [MAX_MEMORY_PER_PROCESS]
  refine ⟨rfl, rfl, ?_, rfl, rfl, ?_⟩
  · rw [c]; decide
  · rw [c]; decide

/-- C1 (amended): for every `total_memory_mb` with `-999 ≤ total_memory_mb` and
`total_memory_mb + 999 ≤ INT_MAX`, the value of
`(total_memory_mb + C - 1) / C` computed by `main` (`C = 1000`) is
`ceil(total_memory_mb / C)`; checked arithmetic agrees whenever the
intermediate `total_memory_mb + C` is representable; 500 gives 1 and 2500
gives 3. -/
theorem num_processes_is_ceil (t : Int) (h1 : -999 ≤ t) (h2 : t + 999 ≤ INT_MAX) :
    num_processes Mode.wrapping t =
      Except.ok (Int.ceil ((t : ℚ) / (MAX_MEMORY_PER_PROCESS : ℚ))) ∧
    (t + 1000 ≤ INT_MAX → num_processes Mode.checked t =
      Except.ok (Int.ceil ((t : ℚ) / (MAX_MEMORY_PER_PROCESS : ℚ)))) ∧
    num_processes Mode.wrapping 500 = Except.ok 1 ∧
    num_processes Mode.wrapping 2500 = Except.ok 3 := by
  have c : Int.ceil ((t : ℚ) / (MAX_MEMORY_PER_PROCESS : ℚ)) = (t + 999) / 1000 := by
    rw [← ceil_div_thousand t]
    simp [MAX_MEMORY_PER_PROCESS]
  rw [c]
  exact ⟨num_processes_wrapping_eq t h1 h2, fun h3 => num_processes_eq Mode.checked t h1 h3,
    rfl, rfl⟩

/-- Instance of `num_processes_is_ceil` at `total_memory_mb = 2500`. -/
theorem num_processes_is_ceil_witness :
    num_processes Mode.wrapping 2500 =
      Except.ok (Int.ceil (((2500 : Int) : ℚ) / (MAX_MEMORY_PER_PROCESS : ℚ))) ∧
    ((2500 : Int) + 1000 ≤ INT_MAX → num_processes Mode.checked 2500 =
      Except.ok (Int.ceil (((2500 : Int) : ℚ) / (MAX_MEMORY_PER_PROCESS : ℚ)))) ∧
    num_processes Mode.wrapping 500 = Except.ok 1 ∧
    num_processes Mode.wrapping 2500 = Except.ok 3 :=
  num_processes_is_ceil 2500 (by decide) (by decide)

/-- C2 (as stated, refuted): at `total_memory_mb = -3501` the code computes
`num_processes = -2` and `memory_per_process = 1750`, whose product `-3500`
exceeds the total; at `total_memory_mb = 0` the count is 0 and the division
that defines `memory_per_process` has a zero divisor. -/
theorem share_times_count_exceeds_total :
    plan Mode.wrapping (-3501) = Except.ok (-2, 1750) ∧
    plan Mode.checked (-3501) = Except.ok (-2, 1750) ∧
    ¬ ((1750 : Int) * (-2) ≤ -3501) ∧
    plan Mode.wrapping 0 = Except.error CErr.divByZero ∧
    plan Mode.checked 0 = Except.error CErr.divByZero :=
  ⟨rfl, rfl, by decide, rfl, rfl⟩

/-- C2 (amended): for every `total_memory_mb ≥ 1` (an `int`) `main` computes a
plan, `memory_per_process` is the truncated quotient
`total_memory_mb / num_processes`, and
`memory_per_process * num_processes ≤ total_memory_mb`; checked arithmetic
computes the same plan whenever `total_memory_mb + 1000` is representable;
2500 gives `(3, 833)` and `833 * 3 = 2499`. -/
theorem share_times_count_le_total (t : Int) (h1 : 1 ≤ t) (h2 : t ≤ INT_MAX) :
    ∃ np mpp, num_processes Mode.wrapping t = Except.ok np ∧
      plan Mode.wrapping t = Except.ok (np, mpp) ∧
      mpp = Int.tdiv t np ∧ mpp * np ≤ t ∧
      (t + 1000 ≤ INT_MAX → plan Mode.checked t = Except.ok (np, mpp)) ∧
      plan Mode.wrapping 2500 = Except.ok (3, 833) ∧ (833 : Int) * 3 = 2499 := by
  obtain ⟨np, hnp, hz, hp⟩ := plan_wrapping_pos t h1 h2
  refine ⟨np, Int.tdiv t np, hnp, hp, rfl, (tdiv_nonneg_bounds t np (by omega) hz).2.2, ?_,
    rfl, by decide⟩
  intro h3
  rw [← hp, plan_eq Mode.checked t h1 h3, plan_eq Mode.wrapping t h1 h3]

/-- Instance of `share_times_count_le_total` at `total_memory_mb = 2500`. -/
theorem share_times_count_le_total_witness :
    ∃ np mpp, num_processes Mode.wrapping 2500 = Except.ok np ∧
      plan Mode.wrapping 2500 = Except.ok (np, mpp) ∧
      mpp = Int.tdiv 2500 np ∧ mpp * np ≤ 2500 ∧
      ((2500 : Int) + 1000 ≤ INT_MAX → plan Mode.checked 2500 = Except.ok (np, mpp)) ∧
      plan Mode.wrapping 2500 = Except.ok (3, 833) ∧ (833 : Int) * 3 = 2499 :=
  share_times_count_le_total 2500 (by decide) (by decide)

/-- C9: `MAX_MEMORY_PER_PROCESS` is 1000, and for every `total_memory_mb ≥ 1`
with `total_memory_mb + 999 ≤ INT_MAX` the plan computed by `main` has
`num_processes ≥ 1` and `1 ≤ memory_per_process ≤ MAX_MEMORY_PER_PROCESS`;
checked arithmetic computes the same plan whenever the intermediate
`total_memory_mb + 1000` is representable too. -/
theorem plan_within_ceiling (t : Int) (h1 : 1 ≤ t) (h2 : t + 999 ≤ INT_MAX) :
    MAX_MEMORY_PER_PROCESS = 1000 ∧
    ∃ np mpp, plan Mode.wrapping t = Except.ok (np, mpp) ∧
      1 ≤ np ∧ 1 ≤ mpp ∧ mpp ≤ MAX_MEMORY_PER_PROCESS ∧
      (t + 1000 ≤ INT_MAX → plan Mode.checked t = Except.ok (np, mpp)) := by
  have hmax : INT_MAX = 2147483647 := rfl
  obtain ⟨np, hnp, _, hp⟩ := plan_wrapping_pos t h1 (by omega)
  rw [num_processes_wrapping_eq t (by omega) h2] at hnp
  cases hnp
  have hpos : 0 < (t + 999) / 1000 := by omega
  have e : Int.tdiv t ((t + 999) / 1000) = t / ((t + 999) / 1000) :=
    Int.tdiv_eq_ediv (by omega) (le_of_lt hpos)
  have hb := share_bounds t h1
  refine ⟨rfl, (t + 999) / 1000, Int.tdiv t ((t + 999) / 1000), hp, by omega, ?_, ?_, ?_⟩
  · rw [e]; exact hb.1
  · rw [e]; exact hb.2
  · intro h3
    rw [e]
    exact plan_eq Mode.checked t h1 h3

/-- Instance of `plan_within_ceiling` at the largest admitted request,
`total_memory_mb = 2147482648`. -/
theorem plan_within_ceiling_witness :
    MAX_MEMORY_PER_PROCESS = 1000 ∧
    ∃ np mpp, plan Mode.wrapping 2147482648 = Except.ok (np, mpp) ∧
      1 ≤ np ∧ 1 ≤ mpp ∧ mpp ≤ MAX_MEMORY_PER_PROCESS ∧
      ((2147482648 : Int) + 1000 ≤ INT_MAX →
        plan Mode.checked 2147482648 = Except.ok (np, mpp)) :=
  plan_within_ceiling 2147482648 (by decide) (by decide)

/-! ## The pause flag -/

theorem deliver_usr1_live (w : Worker) (h : w.pc.dead = false) :
    (deliver_usr1 w).paused = c_not w.paused ∧ (deliver_usr1 w).pc.dead = false := by
  rcases w with ⟨pid, mb, st, d, B, sz, i, p, pc, ws, out⟩
  cases pc <;> simp_all [deliver_usr1, signalHandler, PC.dead]

/-- C4: from a pause flag `p` in {0, 1}, `n` deliveries of `SIGUSR1` to
`signalHandler` leave the flag at `p` when `n` is even and at its negation
`1 - p` (which differs from `p`) when `n` is odd, and so does the flag of a
live worker to which `n` such signals are delivered; a signal other than
`SIGUSR1` leaves the flag unchanged and prints nothing. -/
theorem signalHandler_toggle (pid p : Int) (n : Nat) (hp : p = 0 ∨ p = 1) :
    (fun q => (signalHandler pid SIGUSR1 q).1)^[n] p = (if n % 2 = 0 then p else 1 - p) ∧
    (∀ (m : Mode) (w : Worker), w.pc.dead = false → w.paused = p →
      (exec m w (List.replicate n Event.sigusr1)).paused = if n % 2 = 0 then p else 1 - p) ∧
    (1 - p ≠ p ∧ (1 - p = 0 ∨ 1 - p = 1)) ∧
    ∀ sig, sig ≠ SIGUSR1 → signalHandler pid sig p = (p, []) := by
  refine ⟨?_, ?_, ?_, ?_⟩
  · induction n with
    | zero => simp
    | succ k ih =>
      rw [Function.iterate_succ_apply', ih]
      rcases hp with rfl | rfl <;> rcases Nat.mod_two_eq_zero_or_one k with h | h <;>
        simp [signalHandler, c_not, h, Nat.succ_mod_two_eq_zero_iff, Nat.add_mod]
  · intro m
    induction n with
    | zero => intro w _ hw; simpa [exec] using hw
    | succ k ih =>
      intro w hlive hw
      have e : List.replicate (k + 1) Event.sigusr1 =
          List.replicate k Event.sigusr1 ++ [Event.sigusr1] := by
        rw [List.replicate_succ']
      have hk : ∀ (k : Nat) (w : Worker), w.pc.dead = false →
          (exec m w (List.replicate k Event.sigusr1)).pc.dead = false := by
        intro k
        induction k with
        | zero => intro w h; simpa [exec] using h
        | succ j ihj =>
          intro w h
          show (exec m (step m w Event.sigusr1) (List.replicate j Event.sigusr1)).pc.dead = false
          exact ihj _ (deliver_usr1_live w h).2
      rw [e, exec_append]
      show (deliver_usr1 (exec m w (List.replicate k Event.sigusr1))).paused = _
      rw [(deliver_usr1_live _ (hk k w hlive)).1, ih w hlive hw]
      rcases hp with rfl | rfl <;> rcases Nat.mod_two_eq_zero_or_one k with h | h <;>
        simp [c_not, h, Nat.succ_mod_two_eq_zero_iff, Nat.add_mod]
  · rcases hp with rfl | rfl <;> decide
  · intro sig hsig
    simp [signalHandler, hsig]

/-- Instance of `signalHandler_toggle`: three deliveries to a running worker
flip the flag from 0 to 1, two leave it at 0. -/
theorem signalHandler_toggle_witness :
    (fun q => (signalHandler 42 SIGUSR1 q).1)^[3] 0 = 1 ∧
    (allocate_memory Mode.wrapping true 42 1 3 100
      [Event.run, Event.sigusr1, Event.sigusr1, Event.sigusr1]).paused = 1 ∧
    (allocate_memory Mode.wrapping true 42 1 3 100
      [Event.run, Event.sigusr1, Event.sigusr1]).paused = 0 :=
  ⟨(signalHandler_toggle 42 0 3 (Or.inl rfl)).1, by decide, by decide⟩

/-! ## The worker -/

theorem dead_absorbing (m : Mode) (sched : List Event) :
    ∀ w : Worker, w.pc.dead = true → (exec m w sched).pc = w.pc := by
  induction sched with
  | nil => intro w _; rfl
  | cons e rest ih =>
    intro w hw
    have hstep : step m w e = w := by
      rcases w with ⟨pid, mb, st, d, B, sz, i, p, pc, ws, out⟩
      cases e <;> cases pc <;> simp_all [step, run_step, deliver_usr1, deliver_term, PC.dead]
    show (exec m (step m w e) rest).pc = w.pc
    rw [hstep]
    exact ih w hw

theorem floor_div_eq (b n : Int) (hn : 1 ≤ n) : Int.floor ((b : ℚ) / (n : ℚ)) = b / n := by
  have hpos : (0 : ℚ) < (n : ℚ) := by exact_mod_cast (show (0 : Int) < n by omega)
  rw [Int.floor_eq_iff]
  constructor
  · rw [le_div_iff₀ hpos]
    have := Int.ediv_mul_le b (show n ≠ 0 by omega)
    exact_mod_cast this
  · rw [div_lt_iff₀ hpos]
    have := Int.lt_ediv_add_one_mul_self b (show 0 < n by omega)
    exact_mod_cast this

/-- C3: for `steps ≥ 1` and a block size `block_bytes = memory_mb * MB_SIZE ≥ 0`
(as computed in `int`), the worker run to its idle phase has
`step_size = floor(block_bytes / steps)` and has written exactly the ranges
`[i * step_size, (i + 1) * step_size)`, `i = 0 .. steps - 1`; these are
pairwise disjoint, contiguous, and cover exactly `[0, steps * step_size)`;
`steps * step_size ≤ block_bytes`, every write lies inside the block, and the
fewer than `steps` remainder bytes are never written. -/
theorem writes_tile_block (pid memory_mb steps delay_ms block_bytes : Int)
    (hsteps : 1 ≤ steps) (hint : steps ≤ INT_MAX)
    (hblock : c_mul Mode.wrapping memory_mb MB_SIZE = Except.ok block_bytes)
    (hnonneg : 0 ≤ block_bytes) :
    ∃ w step_size,
      allocate_memory Mode.wrapping true pid memory_mb steps delay_ms
        (List.replicate (5 * steps.toNat + 1) Event.run) = w ∧
      w.pc = PC.idle ∧ w.step_size = step_size ∧
      step_size = Int.floor ((block_bytes : ℚ) / (steps : ℚ)) ∧
      w.writes = (List.range steps.toNat).map (fun i : Nat => ((i : Int) * step_size, step_size)) ∧
      List.Pairwise (fun r r' => ∀ a, ¬ (covers r a ∧ covers r' a)) w.writes ∧
      List.Chain' (fun r r' : Int × Int => r.1 + r.2 = r'.1) w.writes ∧
      (∀ a, written w.writes a ↔ 0 ≤ a ∧ a < steps * step_size) ∧
      steps * step_size ≤ block_bytes ∧
      (∀ r ∈ w.writes, 0 ≤ r.1 ∧ r.1 + r.2 ≤ block_bytes) ∧
      block_bytes - steps * step_size < steps ∧
      (∀ a, steps * step_size ≤ a → a < block_bytes → ¬ written w.writes a) := by
  unfold allocate_memory
  have hmin : INT_MIN = -2147483648 := rfl
  have hBr := arith_ok_range Mode.wrapping hblock
  have hn : steps = ((steps.toNat : Nat) : Int) := (Int.toNat_of_nonneg (by omega)).symm
  have hb := (tdiv_pos_bounds block_bytes steps hsteps).1 hnonneg
  have hdiv : Int.tdiv block_bytes steps = block_bytes / steps :=
    Int.tdiv_eq_ediv hnonneg (by omega)
  rw [hdiv] at hb
  obtain ⟨hs0, hs1, hs2⟩ := hb
  have hne : ¬ steps = 0 := by omega
  have hw : wrap32 (block_bytes / steps) = block_bytes / steps :=
    wrap32_of_range (by omega) (by
      have := Int.ediv_le_self steps hnonneg
      omega)
  have hinit : allocate_memory_init Mode.wrapping true pid memory_mb steps delay_ms =
      { pid := pid, memory_mb := memory_mb, steps := steps, delay_ms := delay_ms,
        memory_bytes := block_bytes, step_size := block_bytes / steps,
        i := 0, paused := 0, pc := PC.forTest, writes := [], out := [] } := by
    have hd := c_div_eq Mode.wrapping block_bytes steps hne (Or.inr (by omega))
    simp [allocate_memory_init, hblock, hd, arith, hdiv, hw]
  have hidle := idle_no_signal
    (allocate_memory_init Mode.wrapping true pid memory_mb steps delay_ms) steps.toNat
    (by rw [hinit]) (by rw [hinit]) (by rw [hinit]) (by rw [hinit]; exact hn)
    (by rw [hinit]; exact hint)
  have hwr := idle_writes Mode.wrapping true pid memory_mb steps delay_ms
    (List.replicate (5 * steps.toNat + 1) Event.run) hsteps hint hidle
  have hspec := allocate_memory_init_spec Mode.wrapping true pid memory_mb steps delay_ms hsteps
  have hinv := exec_inv Mode.wrapping steps _ hint hspec.2.2.2.2.2
    (List.replicate (5 * steps.toNat + 1) Event.run) _
    (allocate_memory_init_inv Mode.wrapping true pid memory_mb steps delay_ms hsteps)
  have hsz : (allocate_memory_init Mode.wrapping true pid memory_mb steps delay_ms).step_size =
      block_bytes / steps := by rw [hinit]
  rw [hsz] at hwr hinv
  have hcov := written_slices (block_bytes / steps) steps.toNat hs0
  rw [← hn] at hcov
  refine ⟨_, block_bytes / steps, rfl, hidle, hinv.2.1, (floor_div_eq block_bytes steps hsteps).symm,
    hwr, ?_, ?_, ?_, hs1, ?_, by omega, ?_⟩
  · rw [hwr]
    refine List.Pairwise.imp ?_ (slices_ordered (block_bytes / steps) steps.toNat hs0)
    intro r r' hle a hboth
    have h1 := hboth.1.2
    have h2 := hboth.2.1
    omega
  · rw [hwr]
    exact slices_contiguous _ _
  · rw [hwr]
    exact hcov
  · intro r hr
    rw [hwr] at hr
    simp only [slices, List.mem_map, List.mem_range] at hr
    obtain ⟨k, hk, rfl⟩ := hr
    simp only [slice]
    have hk0 : (0 : Int) ≤ (k : Int) * (block_bytes / steps) := mul_nonneg (by omega) hs0
    have hk1 : ((k : Int) + 1) * (block_bytes / steps) ≤ steps * (block_bytes / steps) :=
      mul_le_mul_of_nonneg_right (by omega) hs0
    have e : ((k : Int) + 1) * (block_bytes / steps) =
        (k : Int) * (block_bytes / steps) + block_bytes / steps := by ring
    constructor
    · exact hk0
    · omega
  · intro a ha1 _ hwa
    rw [hwr] at hwa
    have := (hcov a).1 hwa
    omega

/-- Instance of `writes_tile_block`: a 1 MB block written in 3 steps. -/
theorem writes_tile_block_witness :
    (allocate_memory Mode.wrapping true 7 1 3 100
      (List.replicate (5 * (3 : Int).toNat + 1) Event.run)).writes =
      [(0, 349525), (349525, 349525), (699050, 349525)] := by
  obtain ⟨w, s, hw, _, _, hs, hwr, _⟩ :=
    writes_tile_block 7 1 3 100 1048576 (by decide) (by decide) rfl (by decide)
  rw [hw, hwr, hs, floor_div_eq 1048576 3 (by decide)]
  decide

/-- C8: for `steps ≥ 1` and any schedule of program actions and signals, (1) the
worker reaches the `memset` of a step only from the test `while (paused)` with
the flag read as 0, and only that `memset` adds a write, namely the slice of
the current step; (2) whenever the worker stands in the idle phase, what it has
written is exactly the slices `0 .. steps - 1`, each once and in order; (3)
that is the sequence written by the run without signals, which reaches the
idle phase. -/
theorem pausing_preserves_writes (malloc_ok : Bool) (pid memory_mb steps delay_ms : Int)
    (sched : List Event) (hsteps : 1 ≤ steps) (hint : steps ≤ INT_MAX) :
    (∀ (w : Worker) (e : Event), (step Mode.wrapping w e).pc = PC.memsetCall →
      w.pc = PC.memsetCall ∨ (w.pc = PC.whileTest ∧ w.paused = 0 ∧ e = Event.run)) ∧
    (∀ (w : Worker) (e : Event), (step Mode.wrapping w e).writes ≠ w.writes →
      w.pc = PC.memsetCall ∧ e = Event.run ∧
      (step Mode.wrapping w e).writes = w.writes ++ [(wrap32 (w.i * w.step_size), w.step_size)]) ∧
    ((allocate_memory Mode.wrapping malloc_ok pid memory_mb steps delay_ms sched).pc = PC.idle →
      (allocate_memory Mode.wrapping malloc_ok pid memory_mb steps delay_ms sched).writes
        = (List.range steps.toNat).map (fun i : Nat =>
            ((i : Int) *
              (allocate_memory Mode.wrapping malloc_ok pid memory_mb steps delay_ms sched).step_size,
             (allocate_memory Mode.wrapping malloc_ok pid memory_mb steps delay_ms sched).step_size))
      ∧
      (allocate_memory Mode.wrapping malloc_ok pid memory_mb steps delay_ms
        (List.replicate (5 * steps.toNat + 1) Event.run)).pc = PC.idle ∧
      (allocate_memory Mode.wrapping malloc_ok pid memory_mb steps delay_ms sched).writes
        = (allocate_memory Mode.wrapping malloc_ok pid memory_mb steps delay_ms
            (List.replicate (5 * steps.toNat + 1) Event.run)).writes) := by
  unfold allocate_memory
  refine ⟨?_, ?_, ?_⟩
  · intro w e h
    rcases w with ⟨pid, mb, st, d, B, sz, i, p, pc, ws, out⟩
    cases e <;> cases pc <;>
      simp [step, run_step, deliver_usr1, deliver_term, PC.dead, c_mul, c_add, c_div, arith] at h ⊢
    · split at h <;> simp at h
    · by_contra hp
      simp [hp] at h
    · split at h <;> simp at h
  · intro w e h
    rcases w with ⟨pid, mb, st, d, B, sz, i, p, pc, ws, out⟩
    cases e <;> cases pc <;>
      simp [step, run_step, deliver_usr1, deliver_term, PC.dead, c_mul, c_add, c_div, arith] at h ⊢
    · split at h <;> simp at h
    · split at h <;> simp at h
    · split at h <;> simp at h
  · intro hidle
    have hspec := allocate_memory_init_spec Mode.wrapping malloc_ok pid memory_mb steps delay_ms
      hsteps
    have hpc : (allocate_memory_init Mode.wrapping malloc_ok pid memory_mb steps delay_ms).pc
        = PC.forTest := by
      rcases hspec.2.2.2.2.1 with h | h
      · exact h
      · have := dead_absorbing Mode.wrapping sched _ h
        rw [hidle] at this
        rw [← this] at h
        simp [PC.dead] at h
    have hn : steps = ((steps.toNat : Nat) : Int) := (Int.toNat_of_nonneg (by omega)).symm
    have hq := idle_no_signal
      (allocate_memory_init Mode.wrapping malloc_ok pid memory_mb steps delay_ms) steps.toNat
      hpc hspec.2.2.1 hspec.2.1 (by rw [hspec.1]; exact hn) (by rw [hspec.1]; exact hint)
    have h1 := idle_writes Mode.wrapping malloc_ok pid memory_mb steps delay_ms sched hsteps hint
      hidle
    have h2 := idle_writes Mode.wrapping malloc_ok pid memory_mb steps delay_ms
      (List.replicate (5 * steps.toNat + 1) Event.run) hsteps hint hq
    have hinv := exec_inv Mode.wrapping steps _ hint hspec.2.2.2.2.2 sched _
      (allocate_memory_init_inv Mode.wrapping malloc_ok pid memory_mb steps delay_ms hsteps)
    rw [hinv.2.1]
    exact ⟨h1, hq, by rw [h1, h2]⟩

/-- Instance of `pausing_preserves_writes`: a 1 MB block written in 3 steps,
paused and resumed once during step 0. -/
theorem pausing_preserves_writes_witness :
    (allocate_memory Mode.wrapping true 7 1 3 100 pausedOnce).pc = PC.idle ∧
    (allocate_memory Mode.wrapping true 7 1 3 100 pausedOnce).out ≠
      (allocate_memory Mode.wrapping true 7 1 3 100
        (List.replicate (5 * (3 : Int).toNat + 1) Event.run)).out ∧
    (allocate_memory Mode.wrapping true 7 1 3 100 pausedOnce).writes
      = (allocate_memory Mode.wrapping true 7 1 3 100
          (List.replicate (5 * (3 : Int).toNat + 1) Event.run)).writes :=
  ⟨by decide, by decide,
    ((pausing_preserves_writes true 7 1 3 100 pausedOnce (by decide) (by decide)).2.2
      (by decide)).2.2⟩

/-! ## Arithmetic safety -/

/-- At `total_memory_mb = 2^31 - 1000` the dividend
`total_memory_mb + MAX_MEMORY_PER_PROCESS - 1` is exactly `INT_MAX`: two's
complement yields it although the intermediate sum `2^31` is not
representable, which the checked reading reports. -/
theorem dividend_at_bound :
    rounded_total Mode.wrapping 2147482648 = Except.ok INT_MAX ∧
    INT_MAX < 2147482648 + MAX_MEMORY_PER_PROCESS ∧
    rounded_total Mode.checked 2147482648 = Except.error CErr.overflow :=
  ⟨rfl, by decide, rfl⟩

/-- C10: for `1 ≤ total_memory_mb ≤ 2^31 - 1000` and `steps ≥ 1` the plan is
computed; the dividend of line 71 has the value `total_memory_mb + 999`;
`num_processes` and `steps` are non-zero divisors;
`memory_bytes = memory_per_process * 1048576` is exact and at most
1048576000 `< 2^31`; the worker reaches its loop and every offset
`i * step_size`, `0 ≤ i < steps`, is exact (the products in checked
arithmetic too); checked arithmetic computes the same plan up to
`2^31 - 1001`; whereas `total_memory_mb = 0` gives `num_processes = 0` and a
division by zero. -/
theorem arithmetic_safe (t steps pid delay_ms : Int) (h1 : 1 ≤ t) (h2 : t ≤ 2 ^ 31 - 1000)
    (h3 : 1 ≤ steps) :
    ∃ np mpp, plan Mode.wrapping t = Except.ok (np, mpp) ∧
      rounded_total Mode.wrapping t = Except.ok (t + 999) ∧
      np ≠ 0 ∧ steps ≠ 0 ∧
      (∀ m : Mode, c_mul m mpp MB_SIZE = Except.ok (mpp * 1048576)) ∧
      mpp * 1048576 ≤ 1048576000 ∧ (1048576000 : Int) < 2 ^ 31 ∧
      (∀ m : Mode,
        (allocate_memory_init m true pid mpp steps delay_ms).pc = PC.forTest ∧
        (allocate_memory_init m true pid mpp steps delay_ms).memory_bytes = mpp * 1048576 ∧
        (allocate_memory_init m true pid mpp steps delay_ms).step_size
          = mpp * 1048576 / steps ∧
        ∀ i : Int, 0 ≤ i → i < steps →
          c_mul m i (allocate_memory_init m true pid mpp steps delay_ms).step_size
            = Except.ok (i * (allocate_memory_init m true pid mpp steps delay_ms).step_size)) ∧
      (t ≤ 2 ^ 31 - 1001 → plan Mode.checked t = Except.ok (np, mpp) ∧
        rounded_total Mode.checked t = Except.ok (t + 999)) ∧
      num_processes Mode.wrapping 0 = Except.ok 0 ∧
      memory_per_process Mode.wrapping 0 0 = Except.error CErr.divByZero ∧
      plan Mode.wrapping 0 = Except.error CErr.divByZero ∧
      plan Mode.checked 0 = Except.error CErr.divByZero := by
  have hmin : INT_MIN = -2147483648 := rfl
  have hmax : INT_MAX = 2147483647 := rfl
  have hmb : MB_SIZE = 1048576 := rfl
  have hpow : (2 : Int) ^ 31 = 2147483648 := by norm_num
  have h2' : t + 999 ≤ INT_MAX := by omega
  have hb := share_bounds t h1
  have hpos : 0 < (t + 999) / 1000 := by omega
  obtain ⟨np, hnp, _, hp⟩ := plan_wrapping_pos t h1 (by omega)
  rw [num_processes_wrapping_eq t (by omega) h2'] at hnp
  cases hnp
  have e : Int.tdiv t ((t + 999) / 1000) = t / ((t + 999) / 1000) :=
    Int.tdiv_eq_ediv (by omega) (le_of_lt hpos)
  rw [e] at hp
  have hsum : rounded_total Mode.wrapping t = Except.ok (t + 999) := by
    have e1 : wrap32 (wrap32 (t + 1000) - 1) = t + 999 := by
      unfold wrap32
      omega
    simp [rounded_total, c_add, c_sub, arith, MAX_MEMORY_PER_PROCESS, bind, Except.bind, e1]
  refine ⟨(t + 999) / 1000, t / ((t + 999) / 1000), hp, hsum, by omega, by omega, ?_,
    by omega, by norm_num, ?_, ?_, rfl, rfl, rfl, rfl⟩
  · intro m
    simp only [c_mul]
    rw [hmb]
    exact arith_of_range m (by omega) (by omega)
  · intro m
    have hinit := allocate_memory_init_eq m pid (t / ((t + 999) / 1000)) steps delay_ms
      h3 (by rw [hmb]; omega) (by rw [hmb, hmax]; omega)
    have hfit := (allocate_memory_init_spec m true pid (t / ((t + 999) / 1000)) steps
      delay_ms h3).2.2.2.2.2
    refine ⟨by rw [hinit], by rw [hinit, hmb], by rw [hinit, hmb], ?_⟩
    intro i hi0 hi1
    have hi : i = ((i.toNat : Nat) : Int) := (Int.toNat_of_nonneg hi0).symm
    have := hfit i.toNat (by omega)
    rw [← hi] at this
    exact arith_of_range m this.1 this.2
  · intro h4
    have h5 : t + 1000 ≤ INT_MAX := by omega
    refine ⟨plan_eq Mode.checked t h1 h5, ?_⟩
    have a1 : arith Mode.checked (t + 1000) = Except.ok (t + 1000) :=
      arith_of_range Mode.checked (by omega) (by omega)
    have a2 : arith Mode.checked (t + 1000 - 1) = Except.ok (t + 999) := by
      have : t + 1000 - 1 = t + 999 := by ring
      rw [this]
      exact arith_of_range Mode.checked (by omega) (by omega)
    simp [rounded_total, c_add, c_sub, MAX_MEMORY_PER_PROCESS, bind, Except.bind, a1, a2]

/-- Instance of `arithmetic_safe` at the largest admitted request,
`total_memory_mb = 2^31 - 1000`, and 5 steps. -/
theorem arithmetic_safe_witness :
    ∃ np mpp, plan Mode.wrapping 2147482648 = Except.ok (np, mpp) ∧
      rounded_total Mode.wrapping 2147482648 = Except.ok (2147482648 + 999) ∧ np ≠ 0 ∧
      c_mul Mode.wrapping mpp MB_SIZE = Except.ok (mpp * 1048576) ∧
      (allocate_memory_init Mode.wrapping true 7 mpp 5 100).pc = PC.forTest := by
  obtain ⟨np, mpp, hp, hs, hnp, _, hm, _, _, hw, _⟩ :=
    arithmetic_safe 2147482648 5 7 100 (by decide) (by decide) (by decide)
  exact ⟨np, mpp, hp, hs, hnp, hm Mode.wrapping, (hw Mode.wrapping).1⟩

/-! ## The controller -/

theorem spawn_loop_parent (pids : Nat → Int) (k : Nat) :
    ∀ i : Nat, (∀ j, i ≤ j → j < i + k → pids j ≠ 0) →
      spawn_loop pids i k = ((List.range' i k).map (fun j => Effect.fork (pids j)), none) := by
  induction k with
  | zero => intro i _; rfl
  | succ k ih =>
    intro i h
    have h0 : pids i ≠ 0 := h i (le_refl i) (by omega)
    have hrest := ih (i + 1) (fun j hj1 hj2 => h j (by omega) (by omega))
    simp [spawn_loop, h0, hrest, List.range']

/-- The trace of `main` in the controller when three arguments are given, the
plan is computed and the array of line 76 is allocated. -/
theorem main_trace (m : Mode) (env : Env) (argv : List String) (np mpp : Int)
    (hargc : argv.length = 4)
    (hplan : plan m (env.atoi (argv.getD 1 "")) = Except.ok (np, mpp))
    (hnp1 : 1 ≤ np) (hstack : env.stack_fits np = true)
    (hparent : ∀ j, j < np.toNat → env.pids j ≠ 0) :
    main m env argv = Except.ok
      (enableRawMode ++
        [Effect.printf ("Creating " ++ toString np ++ " processes, each gradually allocating " ++
          toString mpp ++ " MB of memory...\n")] ++
        (List.range np.toNat).map (fun j => Effect.fork (env.pids j)) ++
        [Effect.printf "Press 'p' to pause/resume allocation. Press Enter to exit.\n"] ++
        read_loop env.pids np.toNat env.ch0 env.input ++
        shutdown env.pids np.toNat ++
        [Effect.printf "All processes terminated.\n"] ++ disableRawMode,
       Outcome.returned 0) := by
  have hsp := spawn_loop_parent env.pids np.toNat 0 (fun j _ hj => hparent j (by omega))
  rw [← List.range_eq_range'] at hsp
  obtain ⟨a0, a1, a2, a3, rfl⟩ : ∃ a0 a1 a2 a3, argv = [a0, a1, a2, a3] := by
    match argv, hargc with
    | [a0, a1, a2, a3], _ => exact ⟨a0, a1, a2, a3, rfl⟩
  have hget : List.getD [a0, a1, a2, a3] 1 "" = a1 := rfl
  rw [hget] at hplan
  simp only [plan, bind, Except.bind, pure, Except.pure] at hplan
  cases hnp : num_processes m (env.atoi a1) with
  | error e => simp [hnp] at hplan
  | ok np' =>
    simp only [hnp] at hplan
    cases hmpp : memory_per_process m (env.atoi a1) np' with
    | error e => simp [hmpp] at hplan
    | ok mpp' =>
      simp only [hmpp, Except.ok.injEq, Prod.mk.injEq] at hplan
      obtain ⟨rfl, rfl⟩ := hplan
      have hlt : ¬ np' < 1 := by omega
      simp [main, hnp, hmpp, hsp, hlt, hstack, bind, Except.bind, pure, Except.pure]

/-- With a process count below 1, or an array the stack cannot hold, `main`
ends at line 76, the terminal left in raw mode. -/
theorem main_array_fault (m : Mode) (env : Env) (argv : List String) (np mpp : Int)
    (hargc : argv.length = 4)
    (hplan : plan m (env.atoi (argv.getD 1 "")) = Except.ok (np, mpp))
    (hbad : np < 1 ∨ env.stack_fits np = false) :
    main m env argv = Except.ok (enableRawMode, Outcome.crashed CErr.arrayBound) := by
  obtain ⟨a0, a1, a2, a3, rfl⟩ : ∃ a0 a1 a2 a3, argv = [a0, a1, a2, a3] := by
    match argv, hargc with
    | [a0, a1, a2, a3], _ => exact ⟨a0, a1, a2, a3, rfl⟩
  have hget : List.getD [a0, a1, a2, a3] 1 "" = a1 := rfl
  rw [hget] at hplan
  simp only [plan, bind, Except.bind, pure, Except.pure] at hplan
  cases hnp : num_processes m (env.atoi a1) with
  | error e => simp [hnp] at hplan
  | ok np' =>
    simp only [hnp] at hplan
    cases hmpp : memory_per_process m (env.atoi a1) np' with
    | error e => simp [hmpp] at hplan
    | ok mpp' =>
      simp only [hmpp, Except.ok.injEq, Prod.mk.injEq] at hplan
      obtain ⟨rfl, rfl⟩ := hplan
      simp [main, hnp, hmpp, hbad, bind, Except.bind, pure, Except.pure]

/-- The read loop on an input of bytes only: each byte before the first newline
is read and handled by the loop body; the last read is that of the newline, or
the end of input. -/
theorem read_loop_bytes (pids : Nat → Int) (n : Nat) (cs : List Char) :
    ∀ ch : Char, read_loop pids n ch (cs.map ReadResult.byte) =
      (cs.takeWhile (fun c => c != '\n')).flatMap
        (fun c => Effect.read (some (ReadResult.byte c)) :: loop_body pids n c) ++
      [Effect.read ((cs.dropWhile (fun c => c != '\n')).head?.map ReadResult.byte)] := by
  induction cs with
  | nil => intro ch; rfl
  | cons c rest ih =>
    intro ch
    by_cases hc : c = '\n'
    · subst hc
      simp [read_loop]
    · have hb : (c != '\n') = true := by simp [hc]
      simp [read_loop, hc, List.takeWhile, List.dropWhile, hb, ih c]

theorem count_broadcast (pids : Nat → Int) (i : Nat) (n : Nat)
    (hinj : ∀ j, j < n → pids j = pids i → j = i) :
    (broadcast pids n).count (Effect.kill (pids i) SIGUSR1) = if i < n then 1 else 0 := by
  induction n with
  | zero => simp [broadcast]
  | succ k ih =>
    have ih' := ih (fun j hj => hinj j (by omega))
    have e : broadcast pids (k + 1) = broadcast pids k ++ [Effect.kill (pids k) SIGUSR1] := by
      simp [broadcast, List.range_succ]
    rw [e, List.count_append, ih']
    by_cases hik : i < k
    · have hne : pids k ≠ pids i := by
        intro hk
        have := hinj k (by omega) hk
        omega
      have hz : List.count (Effect.kill (pids i) SIGUSR1) [Effect.kill (pids k) SIGUSR1] = 0 :=
        List.count_eq_zero.2 (by simp [Ne.symm hne])
      simp [hik, hz, show i < k + 1 by omega]
    · by_cases hik' : i = k
      · subst hik'
        simp
      · have hne : pids k ≠ pids i := by
          intro hk
          have := hinj k (by omega) hk
          omega
        have hz : List.count (Effect.kill (pids i) SIGUSR1) [Effect.kill (pids k) SIGUSR1] = 0 :=
          List.count_eq_zero.2 (by simp [Ne.symm hne])
        simp [hik, hz, show ¬ i < k + 1 by omega]

theorem count_keys (pids : Nat → Int) (i n : Nat) (hi : i < n)
    (hinj : ∀ j, j < n → pids j = pids i → j = i) (cs : List Char) :
    (cs.flatMap (fun c => Effect.read (some (ReadResult.byte c)) :: loop_body pids n c)).count
        (Effect.kill (pids i) SIGUSR1) =
      cs.countP (fun c => c = 'p' ∨ c = 'P') := by
  induction cs with
  | nil => rfl
  | cons c rest ih =>
    rw [List.flatMap_cons, List.count_append, ih, List.countP_cons]
    have hb := count_broadcast pids i n hinj
    by_cases hc : c = 'p' ∨ c = 'P'
    · simp [loop_body, hc, hb, hi]
      omega
    · simp [loop_body, hc]

theorem read_loop_stops (pids : Nat → Int) (n : Nat) (rs rest : List ReadResult) :
    ∀ ch : Char, read_loop pids n ch (rs ++ ReadResult.byte '\n' :: rest) =
      read_loop pids n ch (rs ++ [ReadResult.byte '\n']) := by
  induction rs with
  | nil => intro ch; simp [read_loop]
  | cons r rs ih =>
    intro ch
    cases r with
    | byte c =>
      by_cases hc : c = '\n'
      · simp [read_loop, hc]
      · simp [read_loop, hc, ih c]
    | error =>
      by_cases hc : ch = '\n'
      · simp [read_loop, hc]
      · simp [read_loop, hc, ih ch]

/-- With three arguments `main` ends by returning 0, by running a worker, or by
a fault of the plan arithmetic or of the array allocation; it never returns
another status. -/
theorem main_status_of_four (m : Mode) (env : Env) (argv : List String) (hargc : argv.length = 4)
    (es : List Effect) (s : Int) (h : main m env argv = Except.ok (es, Outcome.returned s)) :
    s = 0 := by
  obtain ⟨a0, a1, a2, a3, rfl⟩ : ∃ a0 a1 a2 a3, argv = [a0, a1, a2, a3] := by
    match argv, hargc with
    | [a0, a1, a2, a3], _ => exact ⟨a0, a1, a2, a3, rfl⟩
  have hget : List.getD [a0, a1, a2, a3] 1 "" = a1 := rfl
  simp only [main, hget, List.length_cons, List.length_nil, ne_eq, bind, Except.bind, pure,
    Except.pure] at h
  cases hnp : num_processes m (env.atoi a1) with
  | error e => simp [hnp] at h
  | ok np =>
    simp only [hnp] at h
    cases hmpp : memory_per_process m (env.atoi a1) np with
    | error e => simp [hmpp] at h
    | ok mpp =>
      simp only [hmpp] at h
      by_cases hbad : np < 1 ∨ env.stack_fits np = false
      · simp [hbad] at h
      · cases hsp : (spawn_loop env.pids 0 np.toNat).2 with
        | some i => simp [hbad, hsp] at h
        | none =>
          simp [hbad, hsp] at h
          exact h.2.symm

/-- C5: for every number `N` of workers and every input character sequence,
the read loop reads the characters up to the first newline (or the end of
input); each `p` or `P` among them is followed by exactly the `N` sends
`kill(pids[i], SIGUSR1)`, `i = 0 .. N - 1` in order, every other character by
none; so a worker whose pid is not shared is sent as many `SIGUSR1` as there
are `p`/`P` before the first newline; and in `main` (with
`N = num_processes ≥ 1`, the array of line 76 allocated) no `SIGUSR1` is sent
outside this loop. -/
theorem broadcast_per_pause_key (pids : Nat → Int) (N : Nat) (ch0 : Char) (cs : List Char) :
    read_loop pids N ch0 (cs.map ReadResult.byte) =
      (cs.takeWhile (fun c => c != '\n')).flatMap
        (fun c => Effect.read (some (ReadResult.byte c)) ::
          (if c = 'p' ∨ c = 'P' then
            (List.range N).map (fun i => Effect.kill (pids i) SIGUSR1) else [])) ++
      [Effect.read ((cs.dropWhile (fun c => c != '\n')).head?.map ReadResult.byte)] ∧
    (∀ i, i < N → (∀ j, j < N → pids j = pids i → j = i) →
      (read_loop pids N ch0 (cs.map ReadResult.byte)).count (Effect.kill (pids i) SIGUSR1) =
        (cs.takeWhile (fun c => c != '\n')).countP (fun c => c = 'p' ∨ c = 'P')) ∧
    (∀ (m : Mode) (env : Env) (argv : List String) (np mpp : Int),
      argv.length = 4 → plan m (env.atoi (argv.getD 1 "")) = Except.ok (np, mpp) →
      1 ≤ np → env.stack_fits np = true →
      (∀ j, j < np.toNat → env.pids j ≠ 0) →
      ∃ before after,
        main m env argv = Except.ok
          (before ++ read_loop env.pids np.toNat env.ch0 env.input ++ after,
           Outcome.returned 0) ∧
        ∀ pid, Effect.kill pid SIGUSR1 ∉ before ++ after) := by
  refine ⟨?_, ?_, ?_⟩
  · rw [read_loop_bytes]
    rfl
  · intro i hi hinj
    rw [read_loop_bytes, List.count_append, count_keys pids i N hi hinj]
    have hz : List.count (Effect.kill (pids i) SIGUSR1)
        [Effect.read ((cs.dropWhile (fun c => c != '\n')).head?.map ReadResult.byte)] = 0 :=
      List.count_eq_zero.2 (by simp)
    rw [hz]
    rfl
  · intro m env argv np mpp hargc hplan hnp1 hstack hparent
    refine ⟨enableRawMode ++
        [Effect.printf ("Creating " ++ toString np ++ " processes, each gradually allocating " ++
          toString mpp ++ " MB of memory...\n")] ++
        (List.range np.toNat).map (fun j => Effect.fork (env.pids j)) ++
        [Effect.printf "Press 'p' to pause/resume allocation. Press Enter to exit.\n"],
      shutdown env.pids np.toNat ++ [Effect.printf "All processes terminated.\n"] ++
        disableRawMode, ?_, ?_⟩
    · rw [main_trace m env argv np mpp hargc hplan hnp1 hstack hparent]
      simp [List.append_assoc]
    · intro pid
      have hsig : SIGUSR1 ≠ SIGTERM := by decide
      simp [enableRawMode, disableRawMode, shutdown, hsig]

/-- Instance of `broadcast_per_pause_key`: three workers, input `x p P \n p`:
worker 1 is sent two `SIGUSR1`. -/
theorem broadcast_per_pause_key_witness :
    (read_loop (fun i => (i : Int) + 100) 3 'a'
        (['x', 'p', 'P', '\n', 'p'].map ReadResult.byte)).count (Effect.kill 101 SIGUSR1) = 2 :=
  (broadcast_per_pause_key (fun i => (i : Int) + 100) 3 'a' ['x', 'p', 'P', '\n', 'p']).2.1 1
    (by decide) (by intro j _ h; simp at h; omega)

/-- C6: in `main` with `N = num_processes ≥ 1` workers (the array of line 76
allocated), whatever the input, the part of the trace after the read loop is `kill(pids[i], SIGTERM); waitpid(pids[i])` for `i = 0 .. N - 1` in
order, then the line "All processes terminated." and the restoring of the
terminal; it holds no `SIGUSR1` send, `main` returns 0, and the exit handler
restores the terminal once more; the read loop handles nothing after the first
newline, and with a newline as first character it is that single read. -/
theorem shutdown_after_loop (m : Mode) (env : Env) (argv : List String) (np mpp : Int)
    (hargc : argv.length = 4)
    (hplan : plan m (env.atoi (argv.getD 1 "")) = Except.ok (np, mpp))
    (hnp1 : 1 ≤ np) (hstack : env.stack_fits np = true)
    (hparent : ∀ j, j < np.toNat → env.pids j ≠ 0) :
    ∃ before after,
      main m env argv = Except.ok
        (before ++ read_loop env.pids np.toNat env.ch0 env.input ++ after,
         Outcome.returned 0) ∧
      process m env argv = Except.ok
        (before ++ read_loop env.pids np.toNat env.ch0 env.input ++ after ++
          [Effect.tcsetattr false], Outcome.returned 0) ∧
      before = [Effect.tcgetattr, Effect.atexit, Effect.tcsetattr true,
          Effect.printf ("Creating " ++ toString np ++
            " processes, each gradually allocating " ++ toString mpp ++ " MB of memory...\n")] ++
        (List.range np.toNat).map (fun j => Effect.fork (env.pids j)) ++
        [Effect.printf "Press 'p' to pause/resume allocation. Press Enter to exit.\n"] ∧
      after = (List.range np.toNat).flatMap
          (fun i => [Effect.kill (env.pids i) SIGTERM, Effect.waitpid (env.pids i)]) ++
        [Effect.printf "All processes terminated.\n", Effect.tcsetattr false] ∧
      (∀ pid, Effect.kill pid SIGUSR1 ∉ after) ∧
      (∀ (rs rest : List ReadResult) (ch : Char),
        read_loop env.pids np.toNat ch (rs ++ ReadResult.byte '\n' :: rest) =
          read_loop env.pids np.toNat ch (rs ++ [ReadResult.byte '\n'])) ∧
      (∀ rest, env.input = ReadResult.byte '\n' :: rest →
        read_loop env.pids np.toNat env.ch0 env.input =
          [Effect.read (some (ReadResult.byte '\n'))]) := by
  have hmain := main_trace m env argv np mpp hargc hplan hnp1 hstack hparent
  have hsig : SIGUSR1 ≠ SIGTERM := by decide
  refine ⟨_, _, ?_, ?_, rfl, rfl, ?_, ?_, ?_⟩
  · rw [hmain]
    simp [enableRawMode, disableRawMode, shutdown, List.append_assoc]
  · simp [process, hmain, exit_handlers, enableRawMode, disableRawMode, shutdown, bind,
      Except.bind, pure, Except.pure, List.append_assoc]
  · intro pid
    simp [hsig]
  · intro rs rest ch
    exact read_loop_stops env.pids np.toNat rs rest ch
  · intro rest hrest
    rw [hrest]
    simp [read_loop]

/-- Instance of `shutdown_after_loop`: request 2500 (three workers), the operator
presses Enter at once. -/
theorem shutdown_after_loop_witness :
    ∃ before, main Mode.wrapping
        { atoi := fun _ => 2500, stack_fits := fun _ => true, pids := fun i => (i : Int) + 100,
          input := [ReadResult.byte '\n'], ch0 := 'a' } ["prog", "2500", "5", "100"] =
      Except.ok (before ++ [Effect.read (some (ReadResult.byte '\n'))] ++
        ([Effect.kill 100 SIGTERM, Effect.waitpid 100, Effect.kill 101 SIGTERM,
          Effect.waitpid 101, Effect.kill 102 SIGTERM, Effect.waitpid 102] ++
         [Effect.printf "All processes terminated.\n", Effect.tcsetattr false]),
        Outcome.returned 0) := by
  obtain ⟨before, after, hmain, _, _, hafter, _, _, hnl⟩ :=
    shutdown_after_loop Mode.wrapping
      { atoi := fun _ => 2500, stack_fits := fun _ => true, pids := fun i => (i : Int) + 100,
        input := [ReadResult.byte '\n'], ch0 := 'a' } ["prog", "2500", "5", "100"] 3 833
      rfl rfl (by decide) rfl (by intro j _; simp; omega)
  refine ⟨before, ?_⟩
  rw [hmain, hnl [] rfl, hafter]
  rfl

/-- C7: when `argc` differs from 4, `main` prints the usage line and returns 1,
and that line is the only effect of the whole process (no `fork`, no `kill`,
no terminal call); `main` returns 1 in no other case; with `argc = 4` a
returning `main` returns 0, which it does in the controller whenever the plan
is computed with `num_processes ≥ 1` and the array of line 76 is allocated. -/
theorem usage_error (m : Mode) (env : Env) (argv : List String) :
    (argv.length ≠ 4 →
      main m env argv = Except.ok ([Effect.printf (usage argv)], Outcome.returned 1) ∧
      process m env argv = Except.ok ([Effect.printf (usage argv)], Outcome.returned 1)) ∧
    (∀ es, main m env argv = Except.ok (es, Outcome.returned 1) → argv.length ≠ 4) ∧
    (argv.length = 4 → ∀ es s, main m env argv = Except.ok (es, Outcome.returned s) → s = 0) ∧
    (argv.length = 4 → ∀ np mpp, plan m (env.atoi (argv.getD 1 "")) = Except.ok (np, mpp) →
      1 ≤ np → env.stack_fits np = true →
      (∀ j, j < np.toNat → env.pids j ≠ 0) →
      ∃ es, main m env argv = Except.ok (es, Outcome.returned 0)) := by
  refine ⟨?_, ?_, ?_, ?_⟩
  · intro h
    have hm : main m env argv = Except.ok ([Effect.printf (usage argv)], Outcome.returned 1) := by
      simp [main, h]
    refine ⟨hm, ?_⟩
    simp [process, hm, exit_handlers, bind, Except.bind, pure, Except.pure]
  · intro es h hargc
    have := main_status_of_four m env argv hargc es 1 h
    omega
  · intro hargc es s h
    exact main_status_of_four m env argv hargc es s h
  · intro hargc np mpp hplan hnp1 hstack hparent
    exact ⟨_, main_trace m env argv np mpp hargc hplan hnp1 hstack hparent⟩

/-- Instance of `usage_error`: two arguments instead of three. -/
theorem usage_error_witness :
    main Mode.wrapping
        { atoi := fun _ => 2500, stack_fits := fun _ => true, pids := fun i => (i : Int) + 100,
          input := [], ch0 := 'a' }
        ["prog", "2500", "5"] =
      Except.ok ([Effect.printf "Usage: prog <total_memory_in_mb> <steps> <delay_ms>\n"],
        Outcome.returned 1) :=
  ((usage_error Mode.wrapping
    { atoi := fun _ => 2500, stack_fits := fun _ => true, pids := fun i => (i : Int) + 100,
          input := [], ch0 := 'a' }
    ["prog", "2500", "5"]).1 (by decide)).1

end MemoryPressure
